import Mathlib

/-!
Verification of the Othello reachability engine (bitboard core, retrospective
flip enumerator, visited table, BFS disk pipeline and symmetry layer).

Boards are pairs of 64-bit masks `(player, opponent)`, embedded here as natural
numbers below `2 ^ 64`.  All definitions in the `Oth` namespace are shallow
embeddings of the corresponding Rust functions; shifts that the Rust code masks
below `2 ^ 64` are wrap-faithful on naturals because every left shift in the
source is immediately conjoined with a constant mask below `2 ^ 64`.
-/

namespace Oth

/-- The four center squares D4, E4, D5, E5 (bits 27, 28, 35, 36). -/
def CENTER : ℕ := 0x0000001818000000

/-- Directional shift: east, masking off the A file (othello.rs `east`). -/
def east (x : ℕ) : ℕ := (x <<< 1) &&& 0xFEFEFEFEFEFEFEFE

/-- Directional shift: west, masking off the H file (othello.rs `west`). -/
def west (x : ℕ) : ℕ := (x >>> 1) &&& 0x7F7F7F7F7F7F7F7F

/-- Directional shift: north (othello.rs `north`). -/
def north (x : ℕ) : ℕ := (x <<< 8) &&& 0xFFFFFFFFFFFFFF00

/-- Directional shift: south (othello.rs `south`). -/
def south (x : ℕ) : ℕ := (x >>> 8) &&& 0x00FFFFFFFFFFFFFF

/-- Directional shift: north-east (othello.rs `ne`). -/
def ne (x : ℕ) : ℕ := (x <<< 9) &&& (0xFEFEFEFEFEFEFEFE &&& 0xFFFFFFFFFFFFFF00)

/-- Directional shift: north-west (othello.rs `nw`). -/
def nw (x : ℕ) : ℕ := (x <<< 7) &&& (0x7F7F7F7F7F7F7F7F &&& 0xFFFFFFFFFFFFFF00)

/-- Directional shift: south-east (othello.rs `se`). -/
def se (x : ℕ) : ℕ := (x >>> 7) &&& (0xFEFEFEFEFEFEFEFE &&& 0x00FFFFFFFFFFFFFF)

/-- Directional shift: south-west (othello.rs `sw`). -/
def sw (x : ℕ) : ℕ := (x >>> 9) &&& (0x7F7F7F7F7F7F7F7F &&& 0x00FFFFFFFFFFFFFF)

/-- One ray of the flip computation (othello.rs `ray_flips`): walk across
contiguous opponent stones; if the walk ends on a player stone the collected
stones flip, otherwise nothing flips.  The Rust `while` loop moves a single
seed bit strictly in one direction, so it runs at most 8 times; fuel 16 is a
safe upper bound that the loop can never exhaust. -/
def rayFlipsAux (player opponent : ℕ) (step : ℕ → ℕ) : ℕ → ℕ → ℕ → ℕ
  | 0, _, _ => 0
  | fuel + 1, x, flips =>
    if x ≠ 0 ∧ x &&& opponent ≠ 0 then
      rayFlipsAux player opponent step fuel (step x) (flips ||| x)
    else if x &&& player ≠ 0 then flips else 0

/-- othello.rs `ray_flips`. -/
def rayFlips (moveBb player opponent : ℕ) (step : ℕ → ℕ) : ℕ :=
  rayFlipsAux player opponent step 16 (step moveBb) 0

/-- othello.rs `flip`: the set of opponent stones flipped by playing `pos`. -/
def flip (pos : ℕ) (player opponent : ℕ) : ℕ :=
  let moveBb := 1 <<< pos
  if moveBb &&& (player ||| opponent) ≠ 0 then 0
  else
    rayFlips moveBb player opponent east ||| rayFlips moveBb player opponent west |||
    rayFlips moveBb player opponent north ||| rayFlips moveBb player opponent south |||
    rayFlips moveBb player opponent ne ||| rayFlips moveBb player opponent nw |||
    rayFlips moveBb player opponent se ||| rayFlips moveBb player opponent sw

/-- othello.rs `get_moves`: squares where a flip is possible. -/
def getMoves (player opponent : ℕ) : ℕ :=
  (List.range 64).foldl
    (fun moves pos =>
      let bit := 1 <<< pos
      if bit &&& (player ||| opponent) = 0 ∧ flip pos player opponent ≠ 0 then
        moves ||| bit
      else moves)
    0

/-!
## The retrospective flip enumerator (search.rs `retrospective_flip`)

The eight direction blocks of the Rust function are indexed here by `Fin 8` in
source order: up (−8), down (+8), right (−1), left (+1), right-up (−9),
left-down (+9), left-up (−7), right-down (+7).
-/

/-- Bit-index displacement of each direction block, in source order. -/
def dirDelta : Fin 8 → ℤ
  | 0 => -8 | 1 => 8 | 2 => -1 | 3 => 1 | 4 => -9 | 5 => 9 | 6 => -7 | 7 => 7

/-- The square `i` steps from `pos` along direction `d`, as an integer. -/
def sqZ (pos : ℕ) (d : Fin 8) (i : ℕ) : ℤ := (pos : ℤ) + i * dirDelta d

/-- The guard in front of each direction block of `retrospective_flip`
(e.g. `ypos >= 2` for the up block). -/
def dirGuard (pos : ℕ) (d : Fin 8) : Bool :=
  let xpos := pos % 8
  let ypos := pos / 8
  match d with
  | 0 => 2 ≤ ypos
  | 1 => ypos < 6
  | 2 => 2 ≤ xpos
  | 3 => xpos < 6
  | 4 => 2 ≤ xpos ∧ 2 ≤ ypos
  | 5 => xpos < 6 ∧ ypos < 6
  | 6 => xpos < 6 ∧ 2 ≤ ypos
  | 7 => 2 ≤ xpos ∧ ypos < 6

/-- The cap at which each direction block of `retrospective_flip` stops its
run-length loop (e.g. `length == ypos` for the up block). -/
def dirCap (pos : ℕ) (d : Fin 8) : ℕ :=
  let xpos := pos % 8
  let ypos := pos / 8
  match d with
  | 0 => ypos
  | 1 => 7 - ypos
  | 2 => xpos
  | 3 => 7 - xpos
  | 4 => min xpos ypos
  | 5 => min (7 - xpos) (7 - ypos)
  | 6 => min (7 - xpos) ypos
  | 7 => min xpos (7 - ypos)

/-- The run-length loop of one direction block of `retrospective_flip`: extend
the length while the next square is on the board and holds an opponent stone,
stopping at the direction's cap.  The Rust loop checks the one board edge its
direction can cross (`next < 0` for negative deltas, `next > 63` for positive
ones); checking both sides is equivalent.  The loop body runs at most `cap ≤ 7`
times, so fuel 8 can never be exhausted. -/
def runLenAux (opp pos : ℕ) (d : Fin 8) (cap : ℕ) : ℕ → ℕ → ℕ
  | 0, l => l
  | fuel + 1, l =>
    if sqZ pos d (l + 1) < 0 ∨ 63 < sqZ pos d (l + 1) then l
    else if opp.testBit (sqZ pos d (l + 1)).toNat then
      (if l + 1 = cap then l + 1 else runLenAux opp pos d cap fuel (l + 1))
    else l

/-- The `length` value computed by the direction block `d` of
`retrospective_flip` (0 if the block's guard is false and the block is
skipped). -/
def runLen (pos opp : ℕ) (d : Fin 8) : ℕ :=
  if dirGuard pos d then runLenAux opp pos d (dirCap pos d) 8 0 else 0

/-- The per-direction candidate sequence `seq` of `retrospective_flip`: the
single-square masks at distance `1 .. length-1` along the direction. -/
def dirSeq (pos opp : ℕ) (d : Fin 8) : List ℕ :=
  (List.range' 1 (runLen pos opp d - 1)).map (fun i => 1 <<< (sqZ pos d i).toNat)

/-- Cumulative ORs of a list, continuing from `prev`: the successive values of
the `direction` accumulator in `add_direction_sets` (and likewise the chain
`result[k] = result[k-1] | bits` of its first branch). -/
def accOrs (prev : ℕ) : List ℕ → List ℕ
  | [] => []
  | b :: rest => (prev ||| b) :: accOrs (prev ||| b) rest

/-- search.rs `add_direction_sets`: on the first call seed the buffer with the
sentinel 0 followed by the cumulative ORs of `seq`; on later calls append, for
each cumulative OR `dmask` of `seq`, the OR of `dmask` with every entry already
present. -/
def addDirectionSets (acc : List ℕ) (seq : List ℕ) : List ℕ :=
  if acc.isEmpty then 0 :: accOrs 0 seq
  else acc ++ (accOrs 0 seq).flatMap (fun dmask => acc.map (fun r => r ||| dmask))

/-- search.rs `retrospective_flip` as the list of buffer entries
`result[0 .. n)`: fold the eight direction blocks in source order, feeding the
blocks whose run length is at least 2 into `add_direction_sets`.  An empty list
models the function returning 0 without touching the buffer. -/
def retroFlip (pos opp : ℕ) : List ℕ :=
  (List.finRange 8).foldl
    (fun acc d =>
      if 2 ≤ runLen pos opp d then addDirectionSets acc (dirSeq pos opp d) else acc)
    []

/-!
### Specification-side view of the enumerator

The spec describes each direction block through the run length of consecutive
opponent stones and the prefix ORs of the run.  Here runs are defined
geometrically (file/rank coordinates), independently of the loop in the code.
-/

/-- Coordinate displacement `(dx, dy)` of each direction block, in source
order (up, down, right, left, right-up, left-down, left-up, right-down;
"right" walks toward the A file, i.e. decreasing `x`). -/
def dirDXY : Fin 8 → ℤ × ℤ
  | 0 => (0, -1) | 1 => (0, 1) | 2 => (-1, 0) | 3 => (1, 0)
  | 4 => (-1, -1) | 5 => (1, 1) | 6 => (1, -1) | 7 => (-1, 1)

/-- Whether the square `i` steps from `pos` along `d` is on the board,
coordinate-wise (so that walking off a file edge is not confused with
wrapping to the adjacent rank). -/
def sqOn (pos : ℕ) (d : Fin 8) (i : ℕ) : Bool :=
  let x : ℤ := (pos % 8 : ℕ)
  let y : ℤ := (pos / 8 : ℕ)
  let dd := dirDXY d
  decide (0 ≤ x + i * dd.1 ∧ x + i * dd.1 < 8 ∧ 0 ≤ y + i * dd.2 ∧ y + i * dd.2 < 8)

/-- The bit index of the square `i` steps from `pos` along `d`. -/
def sqN (pos : ℕ) (d : Fin 8) (i : ℕ) : ℕ := (sqZ pos d i).toNat

/-- The single-square mask `i` steps from `pos` along `d`. -/
def dirBit (pos : ℕ) (d : Fin 8) (i : ℕ) : ℕ := 1 <<< sqN pos d i

/-- There is an on-board opponent stone `i` steps from `pos` along `d`. -/
def stoneAt (pos opp : ℕ) (d : Fin 8) (i : ℕ) : Bool :=
  sqOn pos d i && opp.testBit (sqN pos d i)

/-- Length of the longest streak of `Q`-true values starting at `i`, looking
at most `fuel` steps ahead. -/
def streak (Q : ℕ → Bool) : ℕ → ℕ → ℕ
  | 0, _ => 0
  | fuel + 1, i => if Q i then streak Q fuel (i + 1) + 1 else 0

/-- The spec's run length `l_d`: the number of consecutive on-board opponent
stones from `pos` in direction `d` (at most 7 squares fit on a ray). -/
def runStones (pos opp : ℕ) (d : Fin 8) : ℕ := streak (stoneAt pos opp d) 7 1

/-- The spec's prefix OR: the union of the first `k` stones along `d`. -/
def prefOr (pos : ℕ) (d : Fin 8) : ℕ → ℕ
  | 0 => 0
  | k + 1 => prefOr pos d k ||| dirBit pos d (k + 1)

/-- OR of all elements of a list of masks. -/
def orList (l : List ℕ) : ℕ := l.foldr (· ||| ·) 0

/-- The list shape of one `add_direction_sets` call on a non-empty buffer:
keep the old entries and append, for each chain value, its OR with every old
entry. -/
def stepProd (A C : List ℕ) : List ℕ :=
  A ++ C.flatMap (fun dmask => A.map (fun r => r ||| dmask))

/-- The buffer built by folding `add_direction_sets` over a list of
per-direction chains (empty when no direction contributes). -/
def buildProd (cs : List (List ℕ)) : List ℕ :=
  match cs with
  | [] => []
  | _ :: _ => cs.foldl stepProd [0]

/-- The per-direction chains fed to `add_direction_sets` by
`retrospective_flip`: the cumulative ORs of `seq` for each direction block
with run length at least 2, in source order. -/
def chainsOf (pos opp : ℕ) : List (List ℕ) :=
  ((List.finRange 8).filter (fun d => decide (2 ≤ runLen pos opp d))).map
    (fun d => accOrs 0 (dirSeq pos opp d))

/-!
## The 8-fold symmetry layer (othello.rs `transpose`, `vertical_mirror`,
`horizontal_mirror`, `board_symmetry`, `unique`)
-/

/-- One delta-swap stage `b ^ (t ^ (t << k))` with `t = (b ^ (b >> k)) & m`:
the building block of othello.rs `Board::transpose`. -/
def deltaSwap (b m k : ℕ) : ℕ :=
  b ^^^ (((b ^^^ (b >>> k)) &&& m) ^^^ (((b ^^^ (b >>> k)) &&& m) <<< k))

/-- othello.rs `Board::transpose`. -/
def transpose (b : ℕ) : ℕ :=
  deltaSwap (deltaSwap (deltaSwap b 0x00aa00aa00aa00aa 7) 0x0000cccc0000cccc 14)
    0x00000000f0f0f0f0 28

/-- One mirror stage `((b >> k) & m1) | ((b << k) & m2)`: the building block of
the two mirror transforms of othello.rs. -/
def orStep (b m1 m2 k : ℕ) : ℕ := ((b >>> k) &&& m1) ||| ((b <<< k) &&& m2)

/-- othello.rs `Board::vertical_mirror`. -/
def verticalMirror (b : ℕ) : ℕ :=
  orStep (orStep (orStep b 0x00FF00FF00FF00FF 0xFF00FF00FF00FF00 8)
    0x0000FFFF0000FFFF 0xFFFF0000FFFF0000 16) 0x00000000FFFFFFFF 0xFFFFFFFF00000000 32

/-- othello.rs `Board::horizontal_mirror`. -/
def horizontalMirror (b : ℕ) : ℕ :=
  orStep (orStep (orStep b 0x5555555555555555 0xAAAAAAAAAAAAAAAA 1)
    0x3333333333333333 0xCCCCCCCCCCCCCCCC 2) 0x0F0F0F0F0F0F0F0F 0xF0F0F0F0F0F0F0F0 4

/-- othello.rs `Board::board_symmetry` on a single mask: apply the horizontal
mirror, the vertical mirror and the transpose according to the three bits of
the symmetry index `s`. -/
def symMask (s : ℕ) (b : ℕ) : ℕ :=
  let b1 := if s &&& 1 ≠ 0 then horizontalMirror b else b
  let b2 := if s &&& 2 ≠ 0 then verticalMirror b1 else b1
  if s &&& 4 ≠ 0 then transpose b2 else b2

/-- othello.rs `Board::board_check` as a predicate: the two assertions that
the function panics on when violated. -/
def boardCheckOk (p o : ℕ) : Prop := p &&& o = 0 ∧ (p ||| o) &&& CENTER = CENTER

instance (p o : ℕ) : Decidable (boardCheckOk p o) := by unfold boardCheckOk; infer_instance

/-- Lexicographic strict order on `[u64; 2]` boards (Rust array comparison
used by `tmp < answer` in `Board::unique`). -/
def plt (a b : ℕ × ℕ) : Prop := a.1 < b.1 ∨ (a.1 = b.1 ∧ a.2 < b.2)

instance (a b : ℕ × ℕ) : Decidable (plt a b) := by unfold plt; infer_instance

/-- othello.rs `Board::unique`: the lexicographically smallest of the eight
symmetry images, computed by folding `if tmp < answer { answer = tmp }` over
symmetry indices 1 to 7 starting from the identity image. -/
def uniq (p o : ℕ) : ℕ × ℕ :=
  (List.range' 1 7).foldl
    (fun ans i =>
      let t := (symMask i p, symMask i o)
      if plt t ans then t else ans)
    (p, o)

/-!
### Permutation view of the symmetry transforms
-/

/-- Source-bit view of a bit permutation: `permApply f b` has bit `i` equal to
bit `f i` of `b`, for `i < 64`. -/
def permApply (f : ℕ → ℕ) (b : ℕ) : ℕ :=
  (List.range 64).foldr (fun i acc => (if b.testBit (f i) then 1 <<< i else 0) ||| acc) 0

/-- Source-bit map of `transpose`: output square `(x, y)` reads input square
`(y, x)`. -/
def tpPerm (j : ℕ) : ℕ := (j % 8) * 8 + j / 8

/-- Source-bit map of `vertical_mirror`. -/
def vmPerm (j : ℕ) : ℕ := j ^^^ 56

/-- Source-bit map of `horizontal_mirror`. -/
def hmPerm (j : ℕ) : ℕ := j ^^^ 7

/-- Source-bit map of `symMask s`: the outermost transform is consulted
first. -/
def symPerm (s : ℕ) (j : ℕ) : ℕ :=
  let j1 := if s &&& 4 ≠ 0 then tpPerm j else j
  let j2 := if s &&& 2 ≠ 0 then vmPerm j1 else j1
  if s &&& 1 ≠ 0 then hmPerm j2 else j2

/-- Composition table of the eight symmetries:
`symMask j (symMask i b) = symMask (mtab i j) b`. -/
def mtab (i j : ℕ) : ℕ :=
  ([[0, 1, 2, 3, 4, 5, 6, 7], [1, 0, 3, 2, 5, 4, 7, 6], [2, 3, 0, 1, 6, 7, 4, 5],
    [3, 2, 1, 0, 7, 6, 5, 4], [4, 6, 5, 7, 0, 2, 1, 3], [5, 7, 4, 6, 1, 3, 0, 2],
    [6, 4, 7, 5, 2, 0, 3, 1], [7, 5, 6, 4, 3, 1, 2, 0]].getD i []).getD j 0

/-!
## Board validation and the `run_dfs` dispatch (othello.rs / reverse_common.rs)
-/

/-- othello.rs `BoardValidation`. -/
inductive BoardValidation where
  | Overlap : BoardValidation
  | MissingCenter : BoardValidation
deriving DecidableEq, Repr

/-- othello.rs `validate_board`. -/
def validateBoard (player opponent : ℕ) : Except BoardValidation Unit :=
  if player &&& opponent ≠ 0 then .error .Overlap
  else if (player ||| opponent) &&& CENTER ≠ CENTER then .error .MissingCenter
  else .ok ()

/-- search.rs `SearchResult`. -/
inductive SearchResult where
  | Found : SearchResult
  | NotFound : SearchResult
  | Unknown : SearchResult
deriving DecidableEq, Repr

/-- The three output sinks of `ReverseOutputs` (reverse_common.rs): the OK, NG
and UNKNOWN files. -/
inductive Sink where
  | ok : Sink
  | ng : Sink
  | unknown : Sink
deriving DecidableEq, Repr

/-- reverse_common.rs `ReverseOutputs::write_result`: which sink a verdict is
written to. -/
def writeResult : SearchResult → Sink
  | .Found => .ok
  | .NotFound => .ng
  | .Unknown => .unknown

/-- The body of the per-board loop of reverse_common.rs `run_dfs`,
parameterised by the retrospective search it would invoke on a valid board:
an invalid board is written to NG (`write_invalid`) and the loop continues
without searching; a valid board is searched and routed by the verdict.  The
boolean records whether the search was invoked. -/
def runDfsBoard (search : ℕ → ℕ → SearchResult) (player opponent : ℕ) :
    Sink × Bool :=
  match validateBoard player opponent with
  | .error _ => (Sink.ng, false)
  | .ok _ => (writeResult (search player opponent), true)

/-!
## The two-tier visited set (search.rs `Btable`)

Keys (`[u64; 2]` pairs ordered lexicographically) are modelled as naturals
with the standard order.  `table.binary_search(&uni)` is the interval-halving
search `bsearch`, proved below to be a correct membership test on the sorted
table the invariant maintains.  The `HashSet` cache is modelled by a
duplicate-free list; its iteration order is irrelevant because the flush
sorts the drained cache before merging.
-/

/-- Insert into a ≤-sorted list, keeping it sorted: one step of the
`c2v.sort()` the flush applies to the drained cache. -/
def insSorted (x : ℕ) : List ℕ → List ℕ
  | [] => [x]
  | y :: ys => if x ≤ y then x :: y :: ys else y :: insSorted x ys

/-- `c2v.sort()` of the flush: sort the drained cache ascending. -/
def sortAsc (l : List ℕ) : List ℕ := l.foldr insSorted []

/-- The backward in-place two-pointer merge of `Btable::insert`, viewed from
the tails of the two ascending runs (`self.table[i - 1] >= c2v[j - 1]` takes
the table entry): the arguments are the reversed (descending) runs, and each
step places the larger head in front of the already-placed suffix `acc`. -/
def revMergeAux : List ℕ → List ℕ → List ℕ → List ℕ
  | [], [], acc => acc
  | t :: rt, [], acc => revMergeAux rt [] (t :: acc)
  | [], c :: rc, acc => revMergeAux [] rc (c :: acc)
  | t :: rt, c :: rc, acc =>
    if c ≤ t then revMergeAux rt (c :: rc) (t :: acc)
    else revMergeAux (t :: rt) rc (c :: acc)
termination_by rt rc _ => rt.length + rc.length

/-- search.rs `Btable`: sorted main table plus unsorted insertion cache.
`capacity` records `table.capacity()`, fixed at construction because the
flush never resizes the vector beyond it. -/
structure Btable where
  cacheSize : ℕ
  capacity : ℕ
  table : List ℕ
  cache : List ℕ
deriving DecidableEq, Repr

/-- `Btable::new(table_size, cache_size)`. -/
def btNew (tableSize cacheSize : ℕ) : Btable := ⟨cacheSize, tableSize, [], []⟩

/-- `Btable::clear`. -/
def btClear (bt : Btable) : Btable := { bt with table := [], cache := [] }

/-- `Btable::len`. -/
def btLen (bt : Btable) : ℕ := bt.cache.length + bt.table.length

/-- `slice::binary_search` on the half-open interval `[lo, hi)`: compare the
middle element and keep the half that can hold the key.  The fuel only bounds
the number of halvings (`hi - lo` strictly decreases, so `t.length + 1`
suffices). -/
def bsearchAux (t : List ℕ) (key : ℕ) : ℕ → ℕ → ℕ → Bool
  | 0, _, _ => false
  | fuel + 1, lo, hi =>
    if hi ≤ lo then false
    else
      if t.getD ((lo + hi) / 2) 0 < key then
        bsearchAux t key fuel ((lo + hi) / 2 + 1) hi
      else if key < t.getD ((lo + hi) / 2) 0 then
        bsearchAux t key fuel lo ((lo + hi) / 2)
      else true

/-- `self.table.binary_search(&uni)` seen as a membership test (`Ok(_)` vs
`Err(_)`). -/
def bsearch (t : List ℕ) (key : ℕ) : Bool :=
  bsearchAux t key (t.length + 1) 0 t.length

/-- `Btable::insert`: report `false` if the key is in either tier; otherwise
add it to the cache and, once the cache has reached `cache_size`, flush:
drop the cache if the merged size would exceed the capacity, else sort the
drained cache and merge it backward into the table.  Returns the new state
and the reported `bool`. -/
def btInsert (bt : Btable) (uni : ℕ) : Btable × Bool :=
  if uni ∈ bt.cache then (bt, false)
  else if bsearch bt.table uni then (bt, false)
  else
    if bt.cacheSize ≤ (uni :: bt.cache).length then
      if bt.capacity < bt.table.length + (uni :: bt.cache).length then
        ({ bt with cache := [] }, true)
      else
        ({ bt with
            table := revMergeAux bt.table.reverse
              (sortAsc (uni :: bt.cache)).reverse [],
            cache := [] }, true)
    else ({ bt with cache := uni :: bt.cache }, true)

/-- The `Btable` invariant: strictly sorted table, duplicate-free cache,
disjoint tiers. -/
def btWF (bt : Btable) : Prop :=
  bt.table.Pairwise (· < ·) ∧ bt.cache.Nodup ∧ ∀ x ∈ bt.cache, x ∉ bt.table

/-- Non-strict counterpart of the Rust array comparison. -/
def ple (a b : ℕ × ℕ) : Prop := ¬ plt b a

/-- One step of the `unique` fold. -/
def mstep (ans t : ℕ × ℕ) : ℕ × ℕ := if plt t ans then t else ans

/-!
## The disk-backed BFS level driver (bfs_search.rs)

Files hold sequences of 16-byte `(player, opponent)` records; the byte layer
is modelled by lists of pairs (so the `len % 16` well-formedness check of the
byte layer has no analogue), and the temporary directory by an association
list keyed by the two file-name shapes the driver uses, `r_<k>.bin` and
`b_<k>_<i>.bin`.  `File::open` of an absent name is the `NotFound` I/O error.
-/

/-- The I/O error kinds the driver can produce. -/
inductive IoErr where
  | notFound : IoErr
  | invalidData : IoErr
  | invalidInput : IoErr
deriving DecidableEq, Repr

/-- The two file-name shapes of the BFS driver: `r_<k>.bin` and
`b_<k>_<i>.bin`. -/
inductive FName where
  | r (k : ℕ) : FName
  | b (k : ℕ) (i : ℕ) : FName
deriving DecidableEq, Repr

/-- The temporary directory: an association list from names to contents. -/
abbrev Store : Type := List (FName × List (ℕ × ℕ))

def storeEmpty : Store := []

def storeGet : Store → FName → Option (List (ℕ × ℕ))
  | [], _ => none
  | (n, v) :: st, m => if m = n then some v else storeGet st m

/-- Write (or overwrite) a file. -/
def storeSet (st : Store) (n : FName) (v : List (ℕ × ℕ)) : Store := (n, v) :: st

/-- `fs::remove_file`. -/
def storeRemove : Store → FName → Store
  | [], _ => []
  | (n, v) :: st, m =>
    if m = n then storeRemove st m else (n, v) :: storeRemove st m

def storeHas (st : Store) (n : FName) : Bool := (storeGet st n).isSome

/-- Insert into a `plt`-sorted list of records, keeping it sorted: one step of
the `bvec.sort()` a block applies before writing. -/
def insSortedP (x : ℕ × ℕ) : List (ℕ × ℕ) → List (ℕ × ℕ)
  | [] => [x]
  | y :: ys => if plt y x then y :: insSortedP x ys else x :: y :: ys

/-- `bvec.sort()`: sort a block's collected records ascending. -/
def sortAscP (l : List (ℕ × ℕ)) : List (ℕ × ℕ) := l.foldr insSortedP []

/-- bfs_search.rs `process_board`, up to its candidate enumeration: when
`board.opponent & !0x0000_0018_1800_0000` is zero the record contributes no
predecessors at all (the source returns before entering the candidate loop);
otherwise the contributed predecessors are the enumeration-and-filter
pipeline, kept abstract here as the parameter `expand`. -/
def processBoardList (expand : ℕ × ℕ → List (ℕ × ℕ)) (rec : ℕ × ℕ) :
    List (ℕ × ℕ) :=
  if rec.2 &&& 0xFFFFFFE7E7FFFFFF = 0 then [] else expand rec

/-- bfs_search.rs `process_bfs_block`: read one block of `r_<numDisc+1>.bin`,
expand every record, and either report `false` without creating any file when
no predecessor was found, or write the sorted distinct predecessors to
`b_<numDisc>_<blockNumber>.bin` and report `true`. -/
def processBfsBlock (expand : ℕ × ℕ → List (ℕ × ℕ)) (numDisc : ℕ) (st : Store)
    (blockSize blockNumber : ℕ) : Except IoErr (Store × Bool) :=
  match storeGet st (FName.r (numDisc + 1)) with
  | none => .error .notFound
  | some recs =>
    if recs.length ≤ blockSize * blockNumber then .error .invalidData
    else
      let prevs := sortAscP
        (((recs.drop (blockSize * blockNumber)).take blockSize).flatMap
          (processBoardList expand)).dedup
      if prevs.isEmpty then .ok (st, false)
      else .ok (storeSet st (FName.b numDisc blockNumber) prevs, true)

/-- The heap key of `merge_sorted_bins`: `Reverse(((p, o), file_idx))`, a
record compared lexicographically with the file index as tie-break. -/
def keyLt (a b : (ℕ × ℕ) × ℕ) : Prop := plt a.1 b.1 ∨ (a.1 = b.1 ∧ a.2 < b.2)

instance (a b : (ℕ × ℕ) × ℕ) : Decidable (keyLt a b) := by
  unfold keyLt plt
  infer_instance

def minKey (a b : (ℕ × ℕ) × ℕ) : (ℕ × ℕ) × ℕ := if keyLt b a then b else a

/-- The minimum of the heap contents. -/
def heapMin : List ((ℕ × ℕ) × ℕ) → Option ((ℕ × ℕ) × ℕ)
  | [] => none
  | c :: cs => some (cs.foldl minKey c)

/-- The heap contents: the next unread record of every non-exhausted input,
tagged with the input's index (`i` numbers the first stream of `ss`). -/
def candList : ℕ → List (List (ℕ × ℕ)) → List ((ℕ × ℕ) × ℕ)
  | _, [] => []
  | i, [] :: ss => candList (i + 1) ss
  | i, (r :: _) :: ss => (r, i) :: candList (i + 1) ss

def remTotal (streams : List (List (ℕ × ℕ))) : ℕ :=
  (streams.map List.length).sum

/-- The merge loop of `merge_sorted_bins`: pop the heap minimum, emit it
unless it equals the last record written, refill from the popped stream. -/
def kmergeAux : ℕ → List (List (ℕ × ℕ)) → Option (ℕ × ℕ) → List (ℕ × ℕ) →
    List (ℕ × ℕ)
  | 0, _, _, acc => acc.reverse
  | fuel + 1, streams, last, acc =>
    match heapMin (candList 0 streams) with
    | none => acc.reverse
    | some (r, idx) =>
      if last = some r then
        kmergeAux fuel (streams.set idx (streams.getD idx []).tail) last acc
      else
        kmergeAux fuel (streams.set idx (streams.getD idx []).tail) (some r)
          (r :: acc)

/-- The record sequence `merge_sorted_bins` writes, given the input contents. -/
def kmerge (contents : List (List (ℕ × ℕ))) : List (ℕ × ℕ) :=
  kmergeAux (remTotal contents) contents none []

/-- Open every input in order (`File::open(p)?`): the first absent name aborts
with the error. -/
def readAll (st : Store) : List FName → Option (List (List (ℕ × ℕ)))
  | [] => some []
  | n :: ns =>
    match storeGet st n with
    | none => none
    | some c => (readAll st ns).map (fun rest => c :: rest)

/-- bfs_search.rs `merge_sorted_bins`: reject an empty input list, open every
input, then write the deduplicating k-way merge to `output` and return the
number of records written. -/
def mergeSortedBins (st : Store) (inputs : List FName) (output : FName) :
    Except IoErr (Store × ℕ) :=
  if inputs.isEmpty then .error .invalidInput
  else
    match readAll st inputs with
    | none => .error .notFound
    | some contents =>
      .ok (storeSet st output (kmerge contents), (kmerge contents).length)

/-- Delete the listed files in order (`fs::remove_file(&inputs[i])?`). -/
def removeAll : Store → List FName → Option Store
  | st, [] => some st
  | st, n :: ns =>
    if storeHas st n then removeAll (storeRemove st n) ns else none

/-- bfs_search.rs `merge_files`: merge the block files `b_<numDisc>_<i>.bin`,
`i < blockCount`, into `r_<numDisc>.bin`, then delete the block files. -/
def mergeFiles (st : Store) (numDisc blockCount : ℕ) : Except IoErr (Store × ℕ) :=
  match mergeSortedBins st ((List.range blockCount).map (FName.b numDisc))
      (FName.r numDisc) with
  | .error e => .error e
  | .ok (st1, count) =>
    match removeAll st1 ((List.range blockCount).map (FName.b numDisc)) with
    | none => .error .notFound
    | some st2 => .ok (st2, count)

/-- The block loop of `process_bfs_seq` (`for i in 0..block_count`),
propagating errors and discarding the per-block flags. -/
def runBlocks (expand : ℕ × ℕ → List (ℕ × ℕ)) (numDisc blockSize : ℕ) :
    ℕ → ℕ → Store → Except IoErr Store
  | _, 0, st => .ok st
  | i, rem + 1, st =>
    match processBfsBlock expand numDisc st blockSize i with
    | .error e => .error e
    | .ok (st', _) => runBlocks expand numDisc blockSize (i + 1) rem st'

/-- bfs_search.rs `process_bfs_seq`: expand every block of
`r_<numDisc+1>.bin`, merge the block files, and report `false` (the NotFound
signal of the BFS driver) exactly when the merged level is empty. -/
def processBfsSeq (expand : ℕ × ℕ → List (ℕ × ℕ)) (numDisc : ℕ) (st : Store)
    (blockSize : ℕ) : Except IoErr (Store × Bool) :=
  match storeGet st (FName.r (numDisc + 1)) with
  | none => .error .notFound
  | some recs =>
    match runBlocks expand numDisc blockSize 0
        ((recs.length + blockSize - 1) / blockSize) st with
    | .error e => .error e
    | .ok st' =>
      match mergeFiles st' numDisc ((recs.length + blockSize - 1) / blockSize) with
      | .error e => .error e
      | .ok (st'', len) =>
        if len = 0 then .ok (st'', false) else .ok (st'', true)

/-!
## Proofs
-/

theorem testBit_permApply (f : ℕ → ℕ) (b : ℕ) (j : ℕ) :
    (permApply f b).testBit j = (decide (j < 64) && b.testBit (f j)) := by
  have main : ∀ l : List ℕ,
      ((l.foldr (fun i acc => (if b.testBit (f i) then 1 <<< i else 0) ||| acc) 0).testBit j)
        = (decide (j ∈ l) && b.testBit (f j)) := by
    intro l
    induction l with
    | nil => simp
    | cons a t ih =>
      simp only [List.foldr_cons, Nat.testBit_or, ih]
      have hba : (if b.testBit (f a) = true then 1 <<< a else 0).testBit j
          = (decide (j = a) && b.testBit (f a)) := by
        by_cases hb : b.testBit (f a) = true
        · simp [hb, Nat.shiftLeft_eq, Nat.testBit_two_pow, eq_comm]
        · simp [hb]
      rw [hba]
      by_cases hja : j = a
      · subst hja
        cases h : b.testBit (f j) <;> simp [List.mem_cons, h]
      · simp [hja, List.mem_cons]
  rw [permApply, main (List.range 64)]
  simp

theorem permApply_lt (f : ℕ → ℕ) (b : ℕ) : permApply f b < 2 ^ 64 := by
  apply Nat.lt_pow_two_of_testBit
  intro i hi
  rw [testBit_permApply]
  simp [Nat.not_lt.mpr hi]

theorem permApply_comp (f g : ℕ → ℕ) (hf : ∀ j, j < 64 → f j < 64) (b : ℕ) :
    permApply f (permApply g b) = permApply (fun j => g (f j)) b := by
  apply Nat.eq_of_testBit_eq
  intro j
  rcases Nat.lt_or_ge j 64 with hj | hj
  · rw [testBit_permApply, testBit_permApply, testBit_permApply]
    simp [hj, hf j hj]
  · simp [testBit_permApply, Nat.not_lt.mpr hj]

theorem permApply_congr (f g : ℕ → ℕ) (h : ∀ j, j < 64 → f j = g j) (b : ℕ) :
    permApply f b = permApply g b := by
  apply Nat.eq_of_testBit_eq
  intro j
  rw [testBit_permApply, testBit_permApply]
  rcases Nat.lt_or_ge j 64 with hj | hj
  · rw [h j hj]
  · simp [Nat.not_lt.mpr hj]

/-- Delta-swap characterization: provided the mask and its shifted copy are
disjoint, `deltaSwap b m k` permutes bits, swapping `j` and `j + k` whenever
`m` has bit `j`. -/
theorem testBit_deltaSwap {m k : ℕ} (hm : m &&& (m <<< k) = 0) (b j : ℕ) :
    (deltaSwap b m k).testBit j =
      (if m.testBit j = true then b.testBit (k + j)
       else if k ≤ j ∧ m.testBit (j - k) = true then b.testBit (j - k)
       else b.testBit j) := by
  have hdisj : ∀ i, k ≤ i → m.testBit i = true → m.testBit (i - k) = false := by
    intro i hki hmi
    cases h : m.testBit (i - k)
    · rfl
    · exfalso
      have hbit : (m &&& (m <<< k)).testBit i = true := by
        rw [Nat.testBit_and, Nat.testBit_shiftLeft]
        simp [hmi, hki, h]
      rw [hm] at hbit
      simp at hbit
  unfold deltaSwap
  simp only [Nat.testBit_xor, Nat.testBit_and, Nat.testBit_shiftLeft, Nat.testBit_shiftRight,
    ge_iff_le]
  by_cases h1 : m.testBit j = true
  · have h2 : k ≤ j → m.testBit (j - k) = false := fun hkj => hdisj j hkj h1
    by_cases hkj : k ≤ j
    · simp only [h1, if_true, h2 hkj, hkj]
      cases b.testBit j <;> cases b.testBit (k + j) <;> simp
    · simp only [h1, if_true, hkj]
      cases b.testBit j <;> cases b.testBit (k + j) <;> simp
  · have h1' : m.testBit j = false := by
      cases h : m.testBit j
      · rfl
      · exact absurd h h1
    by_cases h2 : k ≤ j ∧ m.testBit (j - k) = true
    · obtain ⟨hkj, hmk⟩ := h2
      have hadd : k + (j - k) = j := by omega
      simp only [h1', hkj, hmk, hadd, if_pos (And.intro hkj hmk), Bool.false_and, if_false]
      cases b.testBit j <;> cases b.testBit (j - k) <;> simp
    · simp only [h1', if_false, if_neg h2, Bool.and_false, Bool.xor_false]
      by_cases hkj : k ≤ j
      · have hmk : m.testBit (j - k) = false := by
          cases h : m.testBit (j - k)
          · rfl
          · exact absurd ⟨hkj, h⟩ h2
        simp [h1', hmk, hkj]
      · simp [h1', hkj]

theorem testBit_orStep (b m1 m2 k j : ℕ) :
    (orStep b m1 m2 k).testBit j =
      ((if m1.testBit j = true then b.testBit (k + j) else false) ||
        (if k ≤ j ∧ m2.testBit j = true then b.testBit (j - k) else false)) := by
  unfold orStep
  by_cases h1 : m1.testBit j = true <;> by_cases h2 : m2.testBit j = true <;>
    by_cases hkj : k ≤ j <;>
      simp [Nat.testBit_or, Nat.testBit_and, Nat.testBit_shiftLeft, Nat.testBit_shiftRight,
        h1, h2, hkj, Bool.and_comm]

theorem deltaSwap_lt {b m k : ℕ} (hb : b < 2 ^ 64) (hm : m < 2 ^ 64)
    (hmk : m <<< k < 2 ^ 64) : deltaSwap b m k < 2 ^ 64 := by
  unfold deltaSwap
  have ht : (b ^^^ (b >>> k)) &&& m ≤ m := Nat.and_le_right
  have ht2 : ((b ^^^ (b >>> k)) &&& m) <<< k ≤ m <<< k := by
    simp only [Nat.shiftLeft_eq]
    exact Nat.mul_le_mul_right _ ht
  exact Nat.xor_lt_two_pow hb (Nat.xor_lt_two_pow (lt_of_le_of_lt ht hm)
    (lt_of_le_of_lt ht2 hmk))

theorem orStep_lt {m1 m2 : ℕ} (b k : ℕ) (h1 : m1 < 2 ^ 64) (h2 : m2 < 2 ^ 64) :
    orStep b m1 m2 k < 2 ^ 64 :=
  Nat.or_lt_two_pow (lt_of_le_of_lt Nat.and_le_right h1)
    (lt_of_le_of_lt Nat.and_le_right h2)

theorem transpose_lt {b : ℕ} (hb : b < 2 ^ 64) : transpose b < 2 ^ 64 := by
  unfold transpose
  exact deltaSwap_lt (deltaSwap_lt (deltaSwap_lt hb (by decide) (by decide))
    (by decide) (by decide)) (by decide) (by decide)

theorem verticalMirror_lt (b : ℕ) : verticalMirror b < 2 ^ 64 := by
  unfold verticalMirror
  exact orStep_lt _ _ (by decide) (by decide)

theorem horizontalMirror_lt (b : ℕ) : horizontalMirror b < 2 ^ 64 := by
  unfold horizontalMirror
  exact orStep_lt _ _ (by decide) (by decide)

theorem transpose_perm {b : ℕ} (hb : b < 2 ^ 64) : transpose b = permApply tpPerm b := by
  have hm1 : (0x00aa00aa00aa00aa : ℕ) &&& (0x00aa00aa00aa00aa <<< 7) = 0 := by decide
  have hm2 : (0x0000cccc0000cccc : ℕ) &&& (0x0000cccc0000cccc <<< 14) = 0 := by decide
  have hm3 : (0x00000000f0f0f0f0 : ℕ) &&& (0x00000000f0f0f0f0 <<< 28) = 0 := by decide
  apply Nat.eq_of_testBit_eq
  intro j
  rcases Nat.lt_or_ge j 64 with hj | hj
  · rw [testBit_permApply]
    unfold transpose
    interval_cases j <;>
      simp +decide [testBit_deltaSwap hm1, testBit_deltaSwap hm2, testBit_deltaSwap hm3,
        tpPerm, -Nat.testBit_zero]
  · have h1 : (transpose b).testBit j = false :=
      Nat.testBit_lt_two_pow (lt_of_lt_of_le (transpose_lt hb)
        (Nat.pow_le_pow_right (by norm_num) hj))
    have h2 : (permApply tpPerm b).testBit j = false := by
      rw [testBit_permApply]
      simp [Nat.not_lt.mpr hj]
    rw [h1, h2]

theorem verticalMirror_perm (b : ℕ) : verticalMirror b = permApply vmPerm b := by
  apply Nat.eq_of_testBit_eq
  intro j
  rcases Nat.lt_or_ge j 64 with hj | hj
  · rw [testBit_permApply]
    unfold verticalMirror
    interval_cases j <;> simp +decide [testBit_orStep, vmPerm, -Nat.testBit_zero]
  · have h1 : (verticalMirror b).testBit j = false :=
      Nat.testBit_lt_two_pow (lt_of_lt_of_le (verticalMirror_lt b)
        (Nat.pow_le_pow_right (by norm_num) hj))
    have h2 : (permApply vmPerm b).testBit j = false := by
      rw [testBit_permApply]
      simp [Nat.not_lt.mpr hj]
    rw [h1, h2]

theorem horizontalMirror_perm (b : ℕ) : horizontalMirror b = permApply hmPerm b := by
  apply Nat.eq_of_testBit_eq
  intro j
  rcases Nat.lt_or_ge j 64 with hj | hj
  · rw [testBit_permApply]
    unfold horizontalMirror
    interval_cases j <;> simp +decide [testBit_orStep, hmPerm, -Nat.testBit_zero]
  · have h1 : (horizontalMirror b).testBit j = false :=
      Nat.testBit_lt_two_pow (lt_of_lt_of_le (horizontalMirror_lt b)
        (Nat.pow_le_pow_right (by norm_num) hj))
    have h2 : (permApply hmPerm b).testBit j = false := by
      rw [testBit_permApply]
      simp [Nat.not_lt.mpr hj]
    rw [h1, h2]

theorem permApply_id {b : ℕ} (hb : b < 2 ^ 64) : permApply (fun j => j) b = b := by
  apply Nat.eq_of_testBit_eq
  intro j
  rw [testBit_permApply]
  rcases Nat.lt_or_ge j 64 with hj | hj
  · simp [hj]
  · have : b.testBit j = false :=
      Nat.testBit_lt_two_pow (lt_of_lt_of_le hb (Nat.pow_le_pow_right (by norm_num) hj))
    simp [Nat.not_lt.mpr hj, this]

theorem permApply_and (f : ℕ → ℕ) (x y : ℕ) :
    permApply f x &&& permApply f y = permApply f (x &&& y) := by
  apply Nat.eq_of_testBit_eq
  intro j
  rw [Nat.testBit_and, testBit_permApply, testBit_permApply, testBit_permApply,
    Nat.testBit_and]
  cases decide (j < 64) <;> simp

theorem permApply_or (f : ℕ → ℕ) (x y : ℕ) :
    permApply f x ||| permApply f y = permApply f (x ||| y) := by
  apply Nat.eq_of_testBit_eq
  intro j
  rw [Nat.testBit_or, testBit_permApply, testBit_permApply, testBit_permApply,
    Nat.testBit_or]
  cases decide (j < 64) <;> simp [Bool.and_or_distrib_left]

theorem permApply_zero (f : ℕ → ℕ) : permApply f 0 = 0 := by
  apply Nat.eq_of_testBit_eq
  intro j
  rw [testBit_permApply]
  simp

theorem vmPerm_lt : ∀ j, j < 64 → vmPerm j < 64 := by decide

theorem tpPerm_lt : ∀ j, j < 64 → tpPerm j < 64 := by decide

theorem symPerm_lt_aux : ∀ s : Fin 8, ∀ j : Fin 64, symPerm s.val j.val < 64 := by decide

theorem symPerm_lt {s j : ℕ} (hs : s < 8) (hj : j < 64) : symPerm s j < 64 :=
  symPerm_lt_aux ⟨s, hs⟩ ⟨j, hj⟩

theorem symPerm_comp_table :
    ∀ i j : Fin 8, ∀ t : Fin 64,
      symPerm i.val (symPerm j.val t.val) = symPerm (mtab i.val j.val) t.val := by
  decide

theorem mtab_lt : ∀ i j : Fin 8, mtab i.val j.val < 8 := by decide

theorem mtab_surj : ∀ t k : Fin 8, ∃ s : Fin 8, mtab t.val s.val = k.val := by decide

/-- The single-mask symmetry transform agrees with its permutation view. -/
theorem symMask_perm {s : ℕ} (hs : s < 8) {b : ℕ} (hb : b < 2 ^ 64) :
    symMask s b = permApply (symPerm s) b := by
  have hhm : ∀ x : ℕ, horizontalMirror x = permApply hmPerm x := horizontalMirror_perm
  have hvm : ∀ x : ℕ, verticalMirror x = permApply vmPerm x := verticalMirror_perm
  interval_cases s
  · show b = permApply (symPerm 0) b
    rw [permApply_congr (symPerm 0) (fun j => j) (fun j _ => rfl), permApply_id hb]
  · show horizontalMirror b = permApply (symPerm 1) b
    rw [hhm b]
    exact permApply_congr _ _ (fun j _ => rfl) b
  · show verticalMirror b = permApply (symPerm 2) b
    rw [hvm b]
    exact permApply_congr _ _ (fun j _ => rfl) b
  · show verticalMirror (horizontalMirror b) = permApply (symPerm 3) b
    rw [hhm b, hvm _, permApply_comp vmPerm hmPerm vmPerm_lt]
    exact permApply_congr _ _ (fun j _ => rfl) b
  · show transpose b = permApply (symPerm 4) b
    rw [transpose_perm hb]
    exact permApply_congr _ _ (fun j _ => rfl) b
  · show transpose (horizontalMirror b) = permApply (symPerm 5) b
    rw [hhm b, transpose_perm (permApply_lt hmPerm b),
      permApply_comp tpPerm hmPerm tpPerm_lt]
    exact permApply_congr _ _ (fun j _ => rfl) b
  · show transpose (verticalMirror b) = permApply (symPerm 6) b
    rw [hvm b, transpose_perm (permApply_lt vmPerm b),
      permApply_comp tpPerm vmPerm tpPerm_lt]
    exact permApply_congr _ _ (fun j _ => rfl) b
  · show transpose (verticalMirror (horizontalMirror b)) = permApply (symPerm 7) b
    rw [hhm b, hvm _, permApply_comp vmPerm hmPerm vmPerm_lt,
      transpose_perm (permApply_lt _ b), permApply_comp tpPerm _ tpPerm_lt]
    exact permApply_congr _ _ (fun j _ => rfl) b

theorem symMask_lt {s b : ℕ} (hs : s < 8) (hb : b < 2 ^ 64) : symMask s b < 2 ^ 64 := by
  rw [symMask_perm hs hb]
  exact permApply_lt _ _

/-- Composition law for the eight symmetries. -/
theorem symMask_comp {i j b : ℕ} (hi : i < 8) (hj : j < 8) (hb : b < 2 ^ 64) :
    symMask j (symMask i b) = symMask (mtab i j) b := by
  rw [symMask_perm hi hb, symMask_perm hj (permApply_lt _ _),
    permApply_comp _ _ (fun t ht => symPerm_lt hj ht),
    permApply_congr _ (symPerm (mtab i j))
      (fun t ht => symPerm_comp_table ⟨i, hi⟩ ⟨j, hj⟩ ⟨t, ht⟩),
    ← symMask_perm (mtab_lt ⟨i, hi⟩ ⟨j, hj⟩) hb]

theorem symMask_center : ∀ s : Fin 8, symMask s.val CENTER = CENTER := by decide

/-!
### The fold of `Board::unique` as a minimum over the symmetry orbit
-/

theorem uniq_eq_fold (p o : ℕ) :
    uniq p o = ((List.range' 1 7).map (fun i => (symMask i p, symMask i o))).foldl
      mstep (p, o) := by
  rw [uniq, List.foldl_map]
  rfl

theorem ple_refl (a : ℕ × ℕ) : ple a a := by
  obtain ⟨a1, a2⟩ := a
  simp only [ple, plt]
  omega

theorem ple_trans {a b c : ℕ × ℕ} (h1 : ple a b) (h2 : ple b c) : ple a c := by
  obtain ⟨a1, a2⟩ := a
  obtain ⟨b1, b2⟩ := b
  obtain ⟨c1, c2⟩ := c
  simp only [ple, plt] at h1 h2 ⊢
  omega

theorem ple_antisymm {a b : ℕ × ℕ} (h1 : ple a b) (h2 : ple b a) : a = b := by
  obtain ⟨a1, a2⟩ := a
  obtain ⟨b1, b2⟩ := b
  simp only [ple, plt] at h1 h2
  simp only [Prod.mk.injEq]
  omega

theorem mstep_cases (a t : ℕ × ℕ) : mstep a t = a ∨ mstep a t = t := by
  unfold mstep
  split
  · right; rfl
  · left; rfl

theorem mstep_le_left (a t : ℕ × ℕ) : ple (mstep a t) a := by
  obtain ⟨a1, a2⟩ := a
  obtain ⟨t1, t2⟩ := t
  unfold mstep ple
  split <;> (simp only [plt] at *; omega)

theorem mstep_le_right (a t : ℕ × ℕ) : ple (mstep a t) t := by
  obtain ⟨a1, a2⟩ := a
  obtain ⟨t1, t2⟩ := t
  unfold mstep ple
  split <;> (simp only [plt] at *; omega)

theorem foldMin_le_init : ∀ (l : List (ℕ × ℕ)) (a : ℕ × ℕ), ple (l.foldl mstep a) a := by
  intro l
  induction l with
  | nil => intro a; exact ple_refl a
  | cons y t ih =>
    intro a
    exact ple_trans (ih (mstep a y)) (mstep_le_left a y)

theorem foldMin_le : ∀ (l : List (ℕ × ℕ)) (a x : ℕ × ℕ), x ∈ l → ple (l.foldl mstep a) x := by
  intro l
  induction l with
  | nil => intro a x hx; exact absurd hx (List.not_mem_nil x)
  | cons y t ih =>
    intro a x hx
    rcases List.mem_cons.mp hx with h | h
    · subst h
      exact ple_trans (foldMin_le_init t (mstep a x)) (mstep_le_right a x)
    · exact ih (mstep a y) x h

theorem foldMin_mem : ∀ (l : List (ℕ × ℕ)) (a : ℕ × ℕ),
    l.foldl mstep a = a ∨ l.foldl mstep a ∈ l := by
  intro l
  induction l with
  | nil => intro a; left; rfl
  | cons y t ih =>
    intro a
    rcases ih (mstep a y) with h | h
    · rcases mstep_cases a y with h2 | h2
      · left; rw [List.foldl_cons, h, h2]
      · right; rw [List.foldl_cons, h, h2]; exact List.mem_cons_self y t
    · right
      exact List.mem_cons_of_mem y h

/-- Two min-folds over lists carrying the same set of values (inits included)
agree. -/
theorem foldMin_eq_of_same_set {l1 l2 : List (ℕ × ℕ)} {a1 a2 : ℕ × ℕ}
    (h : ∀ x, (x = a1 ∨ x ∈ l1) ↔ (x = a2 ∨ x ∈ l2)) :
    l1.foldl mstep a1 = l2.foldl mstep a2 := by
  have mem1 : l1.foldl mstep a1 = a1 ∨ l1.foldl mstep a1 ∈ l1 := foldMin_mem l1 a1
  have mem2 : l2.foldl mstep a2 = a2 ∨ l2.foldl mstep a2 ∈ l2 := foldMin_mem l2 a2
  have le1 : ∀ x, (x = a1 ∨ x ∈ l1) → ple (l1.foldl mstep a1) x := by
    rintro x (rfl | hx)
    · exact foldMin_le_init l1 x
    · exact foldMin_le l1 a1 x hx
  have le2 : ∀ x, (x = a2 ∨ x ∈ l2) → ple (l2.foldl mstep a2) x := by
    rintro x (rfl | hx)
    · exact foldMin_le_init l2 x
    · exact foldMin_le l2 a2 x hx
  exact ple_antisymm (le1 _ ((h _).mpr mem2)) (le2 _ ((h _).mp mem1))

theorem symMask_zero (b : ℕ) : symMask 0 b = b := rfl

/-- Membership in the `unique` fold list is membership in the symmetry
orbit. -/
theorem orbit_mem (p o x1 x2 : ℕ) :
    ((x1, x2) = (p, o) ∨ (x1, x2) ∈ (List.range' 1 7).map
      (fun i => (symMask i p, symMask i o))) ↔
    ∃ s, s < 8 ∧ x1 = symMask s p ∧ x2 = symMask s o := by
  constructor
  · rintro (h | h)
    · exact ⟨0, by norm_num, by simp [symMask_zero, Prod.ext_iff] at h ⊢; exact h⟩
    · obtain ⟨i, hi, heq⟩ := List.mem_map.mp h
      have hi8 : i < 8 := by
        have := List.mem_range'_1.mp hi
        omega
      obtain ⟨h1, h2⟩ := Prod.mk.injEq .. ▸ heq
      exact ⟨i, hi8, h1.symm, h2.symm⟩
  · rintro ⟨s, hs, rfl, rfl⟩
    rcases Nat.eq_zero_or_pos s with rfl | hpos
    · left; rw [symMask_zero, symMask_zero]
    · right
      exact List.mem_map.mpr ⟨s, List.mem_range'_1.mpr ⟨hpos, by omega⟩, rfl⟩

/-- Claim C6: for every valid board (disjoint masks below `2 ^ 64` with the
four center squares occupied), all eight symmetry images pass the
`board_check` assertions inside `unique`, canonicalization by `Board::unique`
is invariant under each of the eight symmetries, and is idempotent. -/
theorem c6_canonical_symmetry (p o : ℕ) (hp : p < 2 ^ 64) (ho : o < 2 ^ 64)
    (hv : boardCheckOk p o) :
    (∀ s, s < 8 → boardCheckOk (symMask s p) (symMask s o)) ∧
    (∀ s, s < 8 → uniq (symMask s p) (symMask s o) = uniq p o) ∧
    uniq (uniq p o).1 (uniq p o).2 = uniq p o := by
  obtain ⟨hdisj, hcen⟩ := hv
  have hA : ∀ s, s < 8 → boardCheckOk (symMask s p) (symMask s o) := by
    intro s hs
    have hcc : CENTER < 2 ^ 64 := by decide
    have hCfix : permApply (symPerm s) CENTER = CENTER := by
      rw [← symMask_perm hs hcc]
      exact symMask_center ⟨s, hs⟩
    constructor
    · rw [symMask_perm hs hp, symMask_perm hs ho, permApply_and, hdisj, permApply_zero]
    · rw [symMask_perm hs hp, symMask_perm hs ho, permApply_or]
      calc permApply (symPerm s) (p ||| o) &&& CENTER
          = permApply (symPerm s) (p ||| o) &&& permApply (symPerm s) CENTER := by
            rw [hCfix]
        _ = permApply (symPerm s) ((p ||| o) &&& CENTER) := permApply_and ..
        _ = CENTER := by rw [hcen, hCfix]
  have hclosure : ∀ t, t < 8 → uniq (symMask t p) (symMask t o) = uniq p o := by
    intro t ht
    rw [uniq_eq_fold, uniq_eq_fold]
    apply foldMin_eq_of_same_set
    intro x
    obtain ⟨x1, x2⟩ := x
    rw [orbit_mem, orbit_mem]
    constructor
    · rintro ⟨s, hs, rfl, rfl⟩
      exact ⟨mtab t s, mtab_lt ⟨t, ht⟩ ⟨s, hs⟩, symMask_comp ht hs hp,
        symMask_comp ht hs ho⟩
    · rintro ⟨k, hk, rfl, rfl⟩
      obtain ⟨s, hseq⟩ := mtab_surj ⟨t, ht⟩ ⟨k, hk⟩
      refine ⟨s.val, s.isLt, ?_, ?_⟩
      · rw [symMask_comp ht s.isLt hp, hseq]
      · rw [symMask_comp ht s.isLt ho, hseq]
  refine ⟨hA, hclosure, ?_⟩
  have hu : uniq p o = ((List.range' 1 7).map
      (fun i => (symMask i p, symMask i o))).foldl mstep (p, o) := uniq_eq_fold p o
  have hmem := foldMin_mem ((List.range' 1 7).map (fun i => (symMask i p, symMask i o)))
    (p, o)
  have horb : ∃ k, k < 8 ∧ (uniq p o).1 = symMask k p ∧ (uniq p o).2 = symMask k o := by
    apply (orbit_mem p o (uniq p o).1 (uniq p o).2).mp
    rw [Prod.mk.eta, hu]
    exact hmem
  obtain ⟨k, hk, h1, h2⟩ := horb
  rw [h1, h2]
  exact hclosure k hk

/-- Witness for C6 at the standard opening position. -/
theorem c6_canonical_symmetry_witness :
    uniq (uniq 0x0000000810000000 0x0000001008000000).1
      (uniq 0x0000000810000000 0x0000001008000000).2 =
      uniq 0x0000000810000000 0x0000001008000000 ∧
    uniq (symMask 4 0x0000000810000000) (symMask 4 0x0000001008000000) =
      uniq 0x0000000810000000 0x0000001008000000 := by
  have h := c6_canonical_symmetry 0x0000000810000000 0x0000001008000000
    (by decide) (by decide) (by decide)
  exact ⟨h.2.2, h.2.1 4 (by norm_num)⟩

/-- Claim C1: search.rs claims the flip masks enumerated by
`retrospective_flip` are exactly the valid predecessor flip masks, i.e. that
replaying the claimed last move over the constructed predecessor flips exactly
the enumerated mask and reproduces the target position.  This fails: on the
target position with `player = {B3, D4, E4}` and
`opponent = {A3, C3, A4, A5, D5, E5}` the enumerator offers, for the last move
`q = A3` (bit 16), exactly the flip mask `F = {A4}` (bit 24); but replaying A3
in the corresponding predecessor also flips B3 along the east ray (predecessor
pattern A3 = mover, B3 = opponent, C3 = mover), so the replay flips
`{B3, A4}` ≠ `F` and does not reproduce the target.  The enumerator never
validates its candidates against the forward `flip`. -/
theorem c1_retroflip_replay_mismatch :
    (let sPlayer : ℕ := 0x0000000018020000
     let sOpp : ℕ := 0x0000001901050000
     let q : ℕ := 16
     let F : ℕ := 0x1000000
     let predPlayer : ℕ := sOpp ^^^ (F ||| (1 <<< q))
     let predOpp : ℕ := sPlayer ^^^ F
     retroFlip q sOpp = [0, F] ∧
     flip q predPlayer predOpp = 0x1020000 ∧
     predOpp ^^^ flip q predPlayer predOpp ≠ sPlayer) := by
  decide

/-- Claim C8: `validate_board` reports `Overlap` exactly when the two masks
intersect, otherwise `MissingCenter` exactly when the four center squares are
not all occupied, otherwise `Ok`; and the `run_dfs` loop writes every board
failing validation to the NG sink without invoking the retrospective search. -/
theorem c8_validate_and_dispatch (player opponent : ℕ) :
    (validateBoard player opponent = .error .Overlap ↔ player &&& opponent ≠ 0) ∧
    (validateBoard player opponent = .error .MissingCenter ↔
      player &&& opponent = 0 ∧ (player ||| opponent) &&& CENTER ≠ CENTER) ∧
    (validateBoard player opponent = .ok () ↔
      player &&& opponent = 0 ∧ (player ||| opponent) &&& CENTER = CENTER) ∧
    (∀ search : ℕ → ℕ → SearchResult,
      validateBoard player opponent ≠ .ok () →
      runDfsBoard search player opponent = (Sink.ng, false)) := by
  unfold runDfsBoard validateBoard
  split_ifs with h1 h2 <;> simp_all

/-- Witness for C8 at a concrete invalid board (overlap on bit 0, center
occupied): validation fails and the board is routed to NG unsearched. -/
theorem c8_validate_and_dispatch_witness :
    validateBoard 0x0000000018000001 0x0000001800000001 ≠ .ok () ∧
    runDfsBoard (fun _ _ => .Found) 0x0000000018000001 0x0000001800000001 =
      (Sink.ng, false) := by
  have hval : validateBoard 0x0000000018000001 0x0000001800000001 =
      .error .Overlap := rfl
  have hne : validateBoard 0x0000000018000001 0x0000001800000001 ≠ .ok () := by
    rw [hval]; exact fun h => Except.noConfusion h
  exact ⟨hne,
    (c8_validate_and_dispatch 0x0000000018000001 0x0000001800000001).2.2.2
      (fun _ _ => .Found) hne⟩


/-!
### Run lengths: the loop of `retrospective_flip` versus the geometric runs
-/

theorem streak_le (Q : ℕ → Bool) : ∀ fuel i, streak Q fuel i ≤ fuel := by
  intro fuel
  induction fuel with
  | zero => intro i; simp [streak]
  | succ f ih =>
    intro i
    unfold streak
    split
    · exact Nat.succ_le_succ (ih (i + 1))
    · exact Nat.zero_le _

theorem streak_true (Q : ℕ → Bool) :
    ∀ fuel i j, j < streak Q fuel i → Q (i + j) = true := by
  intro fuel
  induction fuel with
  | zero => intro i j h; simp [streak] at h
  | succ f ih =>
    intro i j h
    unfold streak at h
    by_cases hq : Q i = true
    · rw [if_pos hq] at h
      cases j with
      | zero => simpa using hq
      | succ j' =>
        have := ih (i + 1) j' (by omega)
        rwa [show i + (j' + 1) = i + 1 + j' by omega]
    · rw [if_neg hq] at h
      omega

theorem streak_stop (Q : ℕ → Bool) :
    ∀ fuel i, streak Q fuel i < fuel → Q (i + streak Q fuel i) = false := by
  intro fuel
  induction fuel with
  | zero => intro i h; omega
  | succ f ih =>
    intro i h
    unfold streak at h ⊢
    by_cases hq : Q i = true
    · rw [if_pos hq] at h ⊢
      have := ih (i + 1) (by omega)
      rwa [show i + (streak Q f (i + 1) + 1) = i + 1 + streak Q f (i + 1) by omega]
    · rw [if_neg hq] at h ⊢
      simpa using hq
  
theorem streak_ge (Q : ℕ → Bool) :
    ∀ fuel i n, n ≤ fuel → (∀ j, j < n → Q (i + j) = true) → n ≤ streak Q fuel i := by
  intro fuel
  induction fuel with
  | zero => intro i n h _; omega
  | succ f ih =>
    intro i n hn hall
    cases n with
    | zero => exact Nat.zero_le _
    | succ n' =>
      have hq : Q i = true := by simpa using hall 0 (by omega)
      unfold streak
      rw [if_pos hq]
      have : n' ≤ streak Q f (i + 1) := by
        apply ih (i + 1) n' (by omega)
        intro j hj
        have := hall (j + 1) (by omega)
        rwa [show i + (j + 1) = i + 1 + j by omega] at this
      omega

/-- Coordinates of the ray square: `sqZ` in terms of `(x, y)` displacement. -/
theorem sqZ_coord (pos : ℕ) (hpos : pos < 64) (d : Fin 8) (i : ℕ) :
    sqZ pos d i = ((pos / 8 : ℕ) + i * (dirDXY d).2) * 8 + ((pos % 8 : ℕ) + i * (dirDXY d).1) := by
  have h8 : (pos : ℤ) = (pos / 8 : ℕ) * 8 + (pos % 8 : ℕ) := by
    push_cast
    omega
  fin_cases d <;> (simp [sqZ, dirDelta, dirDXY]; omega)

theorem dirCap_ge_two {pos : ℕ} (hpos : pos < 64) {d : Fin 8}
    (hg : dirGuard pos d = true) : 2 ≤ dirCap pos d := by
  have hx : pos % 8 < 8 := Nat.mod_lt _ (by norm_num)
  have hy : pos / 8 < 8 := Nat.div_lt_of_lt_mul (by omega)
  fin_cases d <;> (simp [dirGuard, dirCap] at hg ⊢ <;> omega)

theorem dirCap_le_seven {pos : ℕ} (hpos : pos < 64) (d : Fin 8) : dirCap pos d ≤ 7 := by
  have hx : pos % 8 < 8 := Nat.mod_lt _ (by norm_num)
  have hy : pos / 8 < 8 := Nat.div_lt_of_lt_mul (by omega)
  fin_cases d <;> (simp [dirCap] <;> omega)

/-- Within the cap, ray squares stay on the board coordinate-wise. -/
theorem sqOn_within_cap {pos : ℕ} (hpos : pos < 64) (d : Fin 8) {i : ℕ}
    (h1 : 1 ≤ i) (h2 : i ≤ dirCap pos d) : sqOn pos d i = true := by
  have hx : pos % 8 < 8 := Nat.mod_lt _ (by norm_num)
  have hy : pos / 8 < 8 := Nat.div_lt_of_lt_mul (by omega)
  fin_cases d <;>
    (simp only [dirCap] at h2
     simp only [sqOn, dirDXY, decide_eq_true_eq]
     push_cast
     omega)

/-- Right beyond the cap the ray leaves the board. -/
theorem sqOn_beyond_cap {pos : ℕ} (hpos : pos < 64) (d : Fin 8) {i : ℕ}
    (h : dirCap pos d < i) : sqOn pos d i = false := by
  have hx : pos % 8 < 8 := Nat.mod_lt _ (by norm_num)
  have hy : pos / 8 < 8 := Nat.div_lt_of_lt_mul (by omega)
  fin_cases d <;>
    (simp only [dirCap] at h
     simp only [sqOn, dirDXY, decide_eq_false_iff_not]
     push_cast
     omega)

/-- Within the cap, the integer square index is within the 64-square board. -/
theorem sqZ_within_cap {pos : ℕ} (hpos : pos < 64) (d : Fin 8) {i : ℕ}
    (h1 : 1 ≤ i) (h2 : i ≤ dirCap pos d) : 0 ≤ sqZ pos d i ∧ sqZ pos d i ≤ 63 := by
  have hx : pos % 8 < 8 := Nat.mod_lt _ (by norm_num)
  have hy : pos / 8 < 8 := Nat.div_lt_of_lt_mul (by omega)
  fin_cases d <;>
    (simp only [dirCap] at h2
     simp only [sqZ, dirDelta]
     push_cast
     omega)

theorem runStones_le_cap {pos : ℕ} (hpos : pos < 64) (opp : ℕ) (d : Fin 8) :
    runStones pos opp d ≤ dirCap pos d := by
  by_contra hcon
  push_neg at hcon
  have hle : runStones pos opp d ≤ 7 := streak_le _ 7 1
  have hq : stoneAt pos opp d (1 + dirCap pos d) = true := by
    have := streak_true (stoneAt pos opp d) 7 1 (dirCap pos d) hcon
    exact this
  have hoff : sqOn pos d (1 + dirCap pos d) = false :=
    sqOn_beyond_cap hpos d (by omega)
  unfold stoneAt at hq
  rw [hoff] at hq
  simp at hq

theorem runLenAux_between (opp pos : ℕ) (d : Fin 8) (cap : ℕ) :
    ∀ fuel l, l ≤ runLenAux opp pos d cap fuel l ∧
      (l < cap → runLenAux opp pos d cap fuel l ≤ cap) := by
  intro fuel
  induction fuel with
  | zero => intro l; exact ⟨le_refl l, fun h => le_of_lt h⟩
  | succ f ih =>
    intro l
    unfold runLenAux
    by_cases h1 : sqZ pos d (l + 1) < 0 ∨ 63 < sqZ pos d (l + 1)
    · rw [if_pos h1]
      exact ⟨le_refl l, fun h => le_of_lt h⟩
    · rw [if_neg h1]
      by_cases h2 : opp.testBit (sqZ pos d (l + 1)).toNat = true
      · rw [if_pos h2]
        by_cases h3 : l + 1 = cap
        · rw [if_pos h3]
          exact ⟨by omega, by omega⟩
        · rw [if_neg h3]
          have hih := ih (l + 1)
          constructor
          · omega
          · intro hl
            have hlt : l + 1 < cap := by omega
            exact hih.2 hlt
      · rw [if_neg h2]
        exact ⟨le_refl l, fun h => le_of_lt h⟩

theorem dirCap_pos_of_guard {pos : ℕ} {d : Fin 8} (hg : dirGuard pos d = true) :
    1 ≤ dirCap pos d := by
  fin_cases d <;> (simp [dirGuard, dirCap] at hg ⊢ <;> omega)

theorem runLen_le_cap (pos opp : ℕ) (d : Fin 8) : runLen pos opp d ≤ dirCap pos d := by
  unfold runLen
  split
  · rename_i hg
    exact (runLenAux_between opp pos d (dirCap pos d) 8 0).2 (dirCap_pos_of_guard hg)
  · exact Nat.zero_le _

theorem runLenAux_sound (opp pos : ℕ) (d : Fin 8) (cap : ℕ) :
    ∀ fuel l i, l < i → i ≤ runLenAux opp pos d cap fuel l →
      opp.testBit (sqZ pos d i).toNat = true := by
  intro fuel
  induction fuel with
  | zero =>
    intro l i h1 h2
    unfold runLenAux at h2
    omega
  | succ f ih =>
    intro l i h1 h2
    unfold runLenAux at h2
    by_cases hb : sqZ pos d (l + 1) < 0 ∨ 63 < sqZ pos d (l + 1)
    · rw [if_pos hb] at h2; omega
    · rw [if_neg hb] at h2
      by_cases hq : opp.testBit (sqZ pos d (l + 1)).toNat = true
      · rw [if_pos hq] at h2
        by_cases h3 : l + 1 = cap
        · rw [if_pos h3] at h2
          have : i = l + 1 := by omega
          rwa [this]
        · rw [if_neg h3] at h2
          rcases Nat.eq_or_lt_of_le (Nat.succ_le_of_lt h1) with heq | hlt
          · rwa [← heq]
          · exact ih (l + 1) i hlt h2
      · rw [if_neg hq] at h2; omega

theorem runLenAux_stop (opp pos : ℕ) (d : Fin 8) (cap : ℕ) :
    ∀ fuel l, l < cap → cap - l < fuel →
      runLenAux opp pos d cap fuel l < cap →
      (sqZ pos d (runLenAux opp pos d cap fuel l + 1) < 0 ∨
        63 < sqZ pos d (runLenAux opp pos d cap fuel l + 1)) ∨
      opp.testBit (sqZ pos d (runLenAux opp pos d cap fuel l + 1)).toNat = false := by
  intro fuel
  induction fuel with
  | zero => intro l _ h2 _; omega
  | succ f ih =>
    intro l hl hfuel hres
    unfold runLenAux at hres ⊢
    by_cases hb : sqZ pos d (l + 1) < 0 ∨ 63 < sqZ pos d (l + 1)
    · rw [if_pos hb] at hres ⊢
      exact Or.inl hb
    · rw [if_neg hb] at hres ⊢
      by_cases hq : opp.testBit (sqZ pos d (l + 1)).toNat = true
      · rw [if_pos hq] at hres ⊢
        by_cases h3 : l + 1 = cap
        · rw [if_pos h3] at hres
          omega
        · rw [if_neg h3] at hres ⊢
          exact ih (l + 1) (by omega) (by omega) hres
      · rw [if_neg hq] at hres ⊢
        right
        cases h : opp.testBit (sqZ pos d (l + 1)).toNat
        · rfl
        · exact absurd h hq

theorem dirCap_le_one_of_not_guard {pos : ℕ} {d : Fin 8}
    (hg : dirGuard pos d = false) : dirCap pos d ≤ 1 := by
  fin_cases d <;> (simp [dirGuard, dirCap] at hg ⊢ <;> omega)

/-- On direction blocks that the code enters, the loop's length equals the
geometric run length of opponent stones. -/
theorem runLen_eq_runStones {pos : ℕ} (hpos : pos < 64) (opp : ℕ) {d : Fin 8}
    (hg : dirGuard pos d = true) : runLen pos opp d = runStones pos opp d := by
  have hcap2 : 2 ≤ dirCap pos d := dirCap_ge_two hpos hg
  have hcap7 : dirCap pos d ≤ 7 := dirCap_le_seven hpos d
  have hrl : runLen pos opp d = runLenAux opp pos d (dirCap pos d) 8 0 := by
    unfold runLen
    rw [if_pos hg]
  have hrle : runLen pos opp d ≤ dirCap pos d := runLen_le_cap pos opp d
  apply Nat.le_antisymm
  · -- runLen ≤ runStones
    apply streak_ge
    · omega
    · intro j hj
      have hij : 1 ≤ 1 + j ∧ 1 + j ≤ runLen pos opp d := by omega
      unfold stoneAt
      have hsq : sqOn pos d (1 + j) = true :=
        sqOn_within_cap hpos d hij.1 (le_trans hij.2 hrle)
      have hbit : opp.testBit (sqZ pos d (1 + j)).toNat = true := by
        rw [hrl] at hij
        exact runLenAux_sound opp pos d (dirCap pos d) 8 0 (1 + j) (by omega) hij.2
      simp only [hsq, Bool.true_and, sqN]
      exact hbit
  · -- runStones ≤ runLen
    by_contra hcon
    push_neg at hcon
    have hstone : stoneAt pos opp d (1 + runLen pos opp d) = true := by
      have := streak_true (stoneAt pos opp d) 7 1 (runLen pos opp d) hcon
      exact this
    have hscap : runStones pos opp d ≤ dirCap pos d := runStones_le_cap hpos opp d
    have hltcap : runLen pos opp d < dirCap pos d := by omega
    have hstop := runLenAux_stop opp pos d (dirCap pos d) 8 0 (by omega) (by omega)
      (by rw [← hrl]; exact hltcap)
    rw [← hrl] at hstop
    unfold stoneAt at hstone
    have hin := sqZ_within_cap hpos d (i := runLen pos opp d + 1) (by omega) (by omega)
    rcases hstop with hb | hq
    · omega
    · rw [show 1 + runLen pos opp d = runLen pos opp d + 1 by omega] at hstone
      simp only [sqN] at hstone
      rw [hq] at hstone
      simp at hstone

/-- The code enumerates a direction exactly when the spec's run length is at
least 2, and then the two lengths agree. -/
theorem runLen_runStones {pos : ℕ} (hpos : pos < 64) (opp : ℕ) (d : Fin 8) :
    (2 ≤ runLen pos opp d ↔ 2 ≤ runStones pos opp d) ∧
    (2 ≤ runLen pos opp d → runLen pos opp d = runStones pos opp d) := by
  cases hg : dirGuard pos d
  · have h0 : runLen pos opp d = 0 := by
      unfold runLen
      rw [hg]
      rfl
    have h1 : runStones pos opp d < 2 := by
      have := runStones_le_cap hpos opp d
      have := dirCap_le_one_of_not_guard hg
      omega
    constructor
    · omega
    · omega
  · have heq := runLen_eq_runStones hpos opp hg
    exact ⟨by omega, fun _ => heq⟩

/-!
### Geometry of rays: distinct squares, disjoint directions
-/

theorem sqZ_ne_same {pos : ℕ} (d : Fin 8) {i i' : ℕ} (hne : i ≠ i') :
    sqZ pos d i ≠ sqZ pos d i' := by
  fin_cases d <;>
    (simp only [sqZ, dirDelta]
     omega)

theorem sqZ_ne_cross {pos : ℕ} (hpos : pos < 64) {d d' : Fin 8} (hdd : d ≠ d')
    {i i' : ℕ} (hi1 : 1 ≤ i) (hi2 : i ≤ dirCap pos d) (hi1' : 1 ≤ i')
    (hi2' : i' ≤ dirCap pos d') : sqZ pos d i ≠ sqZ pos d' i' := by
  have hx : pos % 8 < 8 := Nat.mod_lt _ (by norm_num)
  have hy : pos / 8 < 8 := Nat.div_lt_of_lt_mul (by omega)
  fin_cases d <;> fin_cases d' <;>
    first
    | exact absurd rfl hdd
    | (simp only [dirCap] at hi2 hi2'
       simp only [sqZ, dirDelta]
       omega)

theorem sqN_inj {pos : ℕ} (hpos : pos < 64) {d d' : Fin 8} {i i' : ℕ}
    (hi1 : 1 ≤ i) (hi2 : i ≤ dirCap pos d) (hi1' : 1 ≤ i') (hi2' : i' ≤ dirCap pos d')
    (heq : sqN pos d i = sqN pos d' i') : d = d' ∧ i = i' := by
  have hin := sqZ_within_cap hpos d hi1 hi2
  have hin' := sqZ_within_cap hpos d' hi1' hi2'
  have hz : sqZ pos d i = sqZ pos d' i' := by
    have h1 : ((sqN pos d i : ℤ)) = sqZ pos d i := Int.toNat_of_nonneg hin.1
    have h2 : ((sqN pos d' i' : ℤ)) = sqZ pos d' i' := Int.toNat_of_nonneg hin'.1
    rw [← h1, ← h2, heq]
  by_cases hdd : d = d'
  · subst hdd
    refine ⟨rfl, ?_⟩
    by_contra hne
    exact sqZ_ne_same d hne hz
  · exact absurd hz (sqZ_ne_cross hpos hdd hi1 hi2 hi1' hi2')

theorem testBit_dirBit (pos : ℕ) (d : Fin 8) (i t : ℕ) :
    (dirBit pos d i).testBit t = decide (t = sqN pos d i) := by
  unfold dirBit
  rw [Nat.shiftLeft_eq, one_mul, Nat.testBit_two_pow]
  by_cases h : t = sqN pos d i
  · simp [h]
  · simp [h, Ne.symm h]

theorem testBit_prefOr (pos : ℕ) (d : Fin 8) :
    ∀ k t, (prefOr pos d k).testBit t = true ↔ ∃ i, 1 ≤ i ∧ i ≤ k ∧ t = sqN pos d i := by
  intro k
  induction k with
  | zero =>
    intro t
    simp only [prefOr, Nat.zero_testBit]
    constructor
    · intro h
      exact absurd h (by simp)
    · rintro ⟨i, h1, h2, _⟩
      omega
  | succ n ih =>
    intro t
    unfold prefOr
    rw [Nat.testBit_or, Bool.or_eq_true, ih, testBit_dirBit]
    constructor
    · rintro (⟨i, h1, h2, h3⟩ | h)
      · exact ⟨i, h1, by omega, h3⟩
      · exact ⟨n + 1, by omega, le_refl _, of_decide_eq_true h⟩
    · rintro ⟨i, h1, h2, h3⟩
      rcases Nat.lt_or_ge i (n + 1) with hlt | hge
      · exact Or.inl ⟨i, h1, by omega, h3⟩
      · right
        have : i = n + 1 := by omega
        subst this
        simp [h3]

theorem prefOr_disjoint {pos : ℕ} (hpos : pos < 64) {d d' : Fin 8} (hdd : d ≠ d')
    {k k' : ℕ} (hk : k ≤ dirCap pos d) (hk' : k' ≤ dirCap pos d') :
    prefOr pos d k &&& prefOr pos d' k' = 0 := by
  apply Nat.eq_of_testBit_eq
  intro t
  rw [Nat.testBit_and, Nat.zero_testBit]
  by_cases h1 : (prefOr pos d k).testBit t = true
  · by_cases h2 : (prefOr pos d' k').testBit t = true
    · exfalso
      obtain ⟨i, hi1, hi2, hit⟩ := (testBit_prefOr pos d k t).mp h1
      obtain ⟨i', hi1', hi2', hit'⟩ := (testBit_prefOr pos d' k' t).mp h2
      have := sqN_inj hpos hi1 (by omega) hi1' (by omega) (hit ▸ hit')
      exact hdd this.1
    · simp [h2]
  · simp [h1]

theorem prefOr_inj {pos : ℕ} (hpos : pos < 64) {d : Fin 8} {k k' : ℕ} (hlt : k < k')
    (hk' : k' ≤ dirCap pos d) : prefOr pos d k ≠ prefOr pos d k' := by
  intro heq
  have hbit : (prefOr pos d k').testBit (sqN pos d k') = true :=
    (testBit_prefOr pos d k' _).mpr ⟨k', by omega, le_refl _, rfl⟩
  rw [← heq] at hbit
  obtain ⟨i, hi1, hi2, hit⟩ := (testBit_prefOr pos d k _).mp hbit
  have := sqN_inj hpos (by omega : 1 ≤ k') (by omega) hi1 (by omega) hit
  omega

theorem prefOr_nonzero {pos : ℕ} {d : Fin 8} {k : ℕ} (h1 : 1 ≤ k) :
    prefOr pos d k ≠ 0 := by
  intro heq
  have hbit : (prefOr pos d k).testBit (sqN pos d 1) = true :=
    (testBit_prefOr pos d k _).mpr ⟨1, le_refl _, h1, rfl⟩
  rw [heq] at hbit
  simp at hbit

/-!
### The product construction of `add_direction_sets`
-/

theorem land_or_distrib (a b s : ℕ) : (a ||| b) &&& s = (a &&& s) ||| (b &&& s) := by
  apply Nat.eq_of_testBit_eq
  intro t
  simp [Nat.testBit_and, Nat.testBit_or, Bool.and_or_distrib_right]

theorem land_eq_self_or {x z : ℕ} (y : ℕ) (h : x &&& z = x) : x &&& (y ||| z) = x := by
  apply Nat.eq_of_testBit_eq
  intro t
  have ht := congrArg (fun n => n.testBit t) h
  simp only [Nat.testBit_and] at ht ⊢
  rw [Nat.testBit_or]
  cases hx : x.testBit t
  · simp
  · rw [hx] at ht
    simp only [Bool.true_and] at ht
    simp [ht]

theorem land_zero_of_sub {x z s : ℕ} (hsub : x &&& z = x) (hz : z &&& s = 0) :
    x &&& s = 0 := by
  apply Nat.eq_of_testBit_eq
  intro t
  have h1 := congrArg (fun n => n.testBit t) hsub
  have h2 := congrArg (fun n => n.testBit t) hz
  simp only [Nat.testBit_and, Nat.zero_testBit] at h1 h2 ⊢
  cases hx : x.testBit t
  · simp
  · rw [hx] at h1
    simp only [Bool.true_and] at h1
    rw [h1] at h2
    simp [h2]

theorem mem_orList_sub {x : ℕ} : ∀ {c : List ℕ}, x ∈ c → x &&& orList c = x := by
  intro c
  induction c with
  | nil => intro h; exact absurd h (List.not_mem_nil x)
  | cons y t ih =>
    intro h
    have : orList (y :: t) = y ||| orList t := rfl
    rw [this]
    rcases List.mem_cons.mp h with rfl | hmem
    · rw [Nat.or_comm]
      exact land_eq_self_or _ (Nat.and_self x)
    · exact land_eq_self_or _ (ih hmem)

theorem or_cancel {x1 x2 d1 d2 s : ℕ} (h1 : x1 &&& s = 0) (h2 : x2 &&& s = 0)
    (hd1 : d1 &&& s = d1) (hd2 : d2 &&& s = d2) (heq : x1 ||| d1 = x2 ||| d2) :
    x1 = x2 ∧ d1 = d2 := by
  have key : ∀ t, x1.testBit t = x2.testBit t ∧ d1.testBit t = d2.testBit t := by
    intro t
    have e0 := congrArg (fun n => n.testBit t) heq
    have e1 := congrArg (fun n => n.testBit t) h1
    have e2 := congrArg (fun n => n.testBit t) h2
    have e3 := congrArg (fun n => n.testBit t) hd1
    have e4 := congrArg (fun n => n.testBit t) hd2
    simp only [Nat.testBit_and, Nat.testBit_or, Nat.zero_testBit] at e0 e1 e2 e3 e4
    cases hs : s.testBit t
    · rw [hs] at e3 e4
      simp only [Bool.and_false] at e3 e4
      rw [← e3, ← e4] at e0 ⊢
      simp only [Bool.or_false] at e0
      exact ⟨e0, rfl⟩
    · rw [hs] at e1 e2
      simp only [Bool.and_true] at e1 e2
      rw [e1, e2] at e0 ⊢
      simp only [Bool.false_or] at e0
      exact ⟨rfl, e0⟩
  exact ⟨Nat.eq_of_testBit_eq fun t => (key t).1, Nat.eq_of_testBit_eq fun t => (key t).2⟩

theorem addDirectionSets_ne (acc seq : List ℕ) (h : acc ≠ []) :
    addDirectionSets acc seq = stepProd acc (accOrs 0 seq) := by
  unfold addDirectionSets stepProd
  rw [if_neg (by simp [List.isEmpty_iff, h])]

theorem addDirectionSets_nil_acc (seq : List ℕ) :
    addDirectionSets [] seq = stepProd [0] (accOrs 0 seq) := by
  unfold addDirectionSets stepProd
  have hsingle : ∀ l : List ℕ, l.flatMap (fun dm => [0].map (fun r => r ||| dm)) = l := by
    intro l
    induction l with
    | nil => rfl
    | cons a t ih => simp_all
  simp only [List.isEmpty_nil, if_true, hsingle]
  rfl

theorem stepProd_ne_nil {A : List ℕ} (h : A ≠ []) (C : List ℕ) : stepProd A C ≠ [] := by
  unfold stepProd
  simp [h]

theorem foldl_stepProd_ne_nil : ∀ (cs : List (List ℕ)) (A : List ℕ), A ≠ [] →
    cs.foldl stepProd A ≠ [] := by
  intro cs
  induction cs with
  | nil => intro A h; exact h
  | cons c rest ih => intro A h; exact ih _ (stepProd_ne_nil h c)

theorem foldl_addDS_eq (pos opp : ℕ) : ∀ (fd : List (Fin 8)) (A : List ℕ), A ≠ [] →
    fd.foldl (fun acc d => addDirectionSets acc (dirSeq pos opp d)) A =
    fd.foldl (fun B d => stepProd B (accOrs 0 (dirSeq pos opp d))) A := by
  intro fd
  induction fd with
  | nil => intro A _; rfl
  | cons d rest ih =>
    intro A hA
    rw [List.foldl_cons, List.foldl_cons, addDirectionSets_ne _ _ hA]
    exact ih _ (stepProd_ne_nil hA _)

theorem foldl_ite_filter {α β : Type} (g : β → α → β) (p : α → Prop) [DecidablePred p] :
    ∀ (l : List α) (a : β),
      l.foldl (fun acc d => if p d then g acc d else acc) a =
      (l.filter (fun d => decide (p d))).foldl g a := by
  intro l
  induction l with
  | nil => intro a; rfl
  | cons x t ih =>
    intro a
    rw [List.foldl_cons]
    by_cases hp : p x
    · rw [if_pos hp, List.filter_cons, if_pos (by simpa using hp), List.foldl_cons, ih]
    · rw [if_neg hp, List.filter_cons, if_neg (by simpa using hp), ih]

theorem retroFlip_eq_buildProd (pos opp : ℕ) :
    retroFlip pos opp = buildProd (chainsOf pos opp) := by
  unfold retroFlip chainsOf buildProd
  rw [foldl_ite_filter (fun acc d => addDirectionSets acc (dirSeq pos opp d))
    (fun d => 2 ≤ runLen pos opp d)]
  cases hfd : (List.finRange 8).filter (fun d => decide (2 ≤ runLen pos opp d)) with
  | nil => rfl
  | cons c rest =>
    simp only [List.map_cons, List.foldl_cons, List.foldl_map,
      addDirectionSets_nil_acc]
    exact foldl_addDS_eq pos opp rest _ (stepProd_ne_nil (by simp) _)

theorem length_stepProd (A C : List ℕ) :
    (stepProd A C).length = A.length * (C.length + 1) := by
  unfold stepProd
  rw [List.length_append]
  have hfm : ∀ C' : List ℕ,
      (C'.flatMap (fun dmask => A.map (fun r => r ||| dmask))).length =
        C'.length * A.length := by
    intro C'
    induction C' with
    | nil => simp
    | cons dm t ih =>
      rw [List.flatMap_cons, List.length_append, List.length_map, ih, List.length_cons]
      ring
  rw [hfm]
  ring

theorem length_foldl_stepProd : ∀ (cs : List (List ℕ)) (A : List ℕ),
    (cs.foldl stepProd A).length = A.length * (cs.map (fun c => c.length + 1)).prod := by
  intro cs
  induction cs with
  | nil => intro A; simp
  | cons c rest ih =>
    intro A
    rw [List.foldl_cons, ih, length_stepProd, List.map_cons, List.prod_cons]
    ring

theorem head?_foldl_stepProd : ∀ (cs : List (List ℕ)) (A : List ℕ), A ≠ [] →
    (cs.foldl stepProd A).head? = A.head? := by
  intro cs
  induction cs with
  | nil => intro A _; rfl
  | cons c rest ih =>
    intro A hA
    rw [List.foldl_cons, ih _ (stepProd_ne_nil hA c)]
    unfold stepProd
    exact List.head?_append_of_ne_nil A hA

theorem mem_stepProd {x : ℕ} {A C : List ℕ} :
    x ∈ stepProd A C ↔ x ∈ A ∨ ∃ dm ∈ C, ∃ r ∈ A, x = r ||| dm := by
  unfold stepProd
  rw [List.mem_append, List.mem_flatMap]
  constructor
  · rintro (h | ⟨dm, hdm, hmap⟩)
    · exact Or.inl h
    · obtain ⟨r, hr, hrx⟩ := List.mem_map.mp hmap
      exact Or.inr ⟨dm, hdm, r, hr, hrx.symm⟩
  · rintro (h | ⟨dm, hdm, r, hr, rfl⟩)
    · exact Or.inl h
    · exact Or.inr ⟨dm, hdm, List.mem_map.mpr ⟨r, hr, rfl⟩⟩

theorem mem_foldl_stepProd : ∀ (cs : List (List ℕ)) (A : List ℕ) (x : ℕ),
    x ∈ cs.foldl stepProd A ↔
      ∃ a ∈ A, ∃ ys, List.Forall₂ (fun y c => y = 0 ∨ y ∈ c) ys cs ∧
        x = a ||| orList ys := by
  intro cs
  induction cs with
  | nil =>
    intro A x
    rw [List.foldl_nil]
    constructor
    · intro h
      exact ⟨x, h, [], List.Forall₂.nil, by simp [orList]⟩
    · rintro ⟨a, ha, ys, hys, rfl⟩
      rw [List.forall₂_nil_right_iff.mp hys]
      simpa [orList] using ha
  | cons c rest ih =>
    intro A x
    rw [List.foldl_cons, ih]
    constructor
    · rintro ⟨a', ha', ys', hys', rfl⟩
      rcases mem_stepProd.mp ha' with h | ⟨dm, hdm, r, hr, rfl⟩
      · refine ⟨a', h, 0 :: ys', List.Forall₂.cons (Or.inl rfl) hys', ?_⟩
        have : orList (0 :: ys') = 0 ||| orList ys' := rfl
        rw [this, Nat.zero_or]
      · refine ⟨r, hr, dm :: ys', List.Forall₂.cons (Or.inr hdm) hys', ?_⟩
        have : orList (dm :: ys') = dm ||| orList ys' := rfl
        rw [this, ← Nat.or_assoc]
    · rintro ⟨a, ha, ys, hys, rfl⟩
      rcases List.forall₂_cons_right_iff.mp hys with ⟨y, ys', hy, hys', rfl⟩
      have hor : orList (y :: ys') = y ||| orList ys' := rfl
      rcases hy with rfl | hymem
      · refine ⟨a, mem_stepProd.mpr (Or.inl ha), ys', hys', ?_⟩
        rw [hor, Nat.zero_or]
      · refine ⟨a ||| y, mem_stepProd.mpr (Or.inr ⟨y, hymem, a, ha, rfl⟩), ys', hys', ?_⟩
        rw [hor, ← Nat.or_assoc]

theorem nodup_stepProd {A C : List ℕ} (hA : A.Nodup) (hC : C.Nodup)
    (hdisjA : ∀ a ∈ A, a &&& orList C = 0) (hnz : ∀ dm ∈ C, dm ≠ 0) :
    (stepProd A C).Nodup := by
  unfold stepProd
  rw [List.nodup_append]
  refine ⟨hA, ?_, ?_⟩
  · rw [List.nodup_flatMap]
    constructor
    · intro dm hdm
      apply List.Nodup.map_on ?_ hA
      intro r1 hr1 r2 hr2 heq
      exact (or_cancel (hdisjA r1 hr1) (hdisjA r2 hr2) (mem_orList_sub hdm)
        (mem_orList_sub hdm) heq).1
    · apply List.Pairwise.imp_of_mem ?_ hC
      intro dm1 dm2 hm1 hm2 hne
      intro x hx1 hx2
      obtain ⟨r1, hr1, hx1'⟩ := List.mem_map.mp hx1
      obtain ⟨r2, hr2, hx2'⟩ := List.mem_map.mp hx2
      have heq : r1 ||| dm1 = r2 ||| dm2 := by rw [hx1', hx2']
      exact hne (or_cancel (hdisjA r1 hr1) (hdisjA r2 hr2) (mem_orList_sub hm1)
        (mem_orList_sub hm2) heq).2
  · intro a haA haF
    obtain ⟨dm, hdm, hmap⟩ := List.mem_flatMap.mp haF
    obtain ⟨r, hr, hrx⟩ := List.mem_map.mp hmap
    have heq : a ||| 0 = r ||| dm := by rw [Nat.or_zero, hrx]
    have h0 := (or_cancel (hdisjA a haA) (hdisjA r hr)
      (by rw [Nat.zero_and]) (mem_orList_sub hdm) heq).2
    exact hnz dm hdm h0.symm

theorem nodup_foldl_stepProd : ∀ (cs : List (List ℕ)) (A : List ℕ),
    A.Nodup →
    (∀ a ∈ A, ∀ c ∈ cs, a &&& orList c = 0) →
    (∀ c ∈ cs, c.Nodup) →
    (∀ c ∈ cs, ∀ x ∈ c, x ≠ 0) →
    cs.Pairwise (fun c1 c2 => orList c1 &&& orList c2 = 0) →
    (cs.foldl stepProd A).Nodup := by
  intro cs
  induction cs with
  | nil => intro A hA _ _ _ _; exact hA
  | cons c rest ih =>
    intro A hA hdisjA hcN hnz hpair
    rw [List.foldl_cons]
    have hcmem : c ∈ c :: rest := List.mem_cons_self c rest
    apply ih
    · exact nodup_stepProd hA (hcN c hcmem) (fun a ha => hdisjA a ha c hcmem)
        (hnz c hcmem)
    · intro a' ha' c' hc'
      have hc'cs : c' ∈ c :: rest := List.mem_cons_of_mem c hc'
      have hcc' : orList c &&& orList c' = 0 :=
        (List.pairwise_cons.mp hpair).1 c' hc'
      rcases mem_stepProd.mp ha' with h | ⟨dm, hdm, r, hr, rfl⟩
      · exact hdisjA a' h c' hc'cs
      · rw [land_or_distrib, hdisjA r hr c' hc'cs, Nat.zero_or]
        exact land_zero_of_sub (mem_orList_sub hdm) hcc'
    · intro c' hc'; exact hcN c' (List.mem_cons_of_mem c hc')
    · intro c' hc'; exact hnz c' (List.mem_cons_of_mem c hc')
    · exact (List.pairwise_cons.mp hpair).2

/-!
### The chains of `retrospective_flip` are the spec's prefix ORs
-/

theorem accOrs_map_dirBit (pos : ℕ) (d : Fin 8) :
    ∀ (m k : ℕ),
      accOrs (prefOr pos d k) ((List.range' (k + 1) m).map (dirBit pos d)) =
        (List.range' (k + 1) m).map (prefOr pos d) := by
  intro m
  induction m with
  | zero => intro k; rfl
  | succ n ih =>
    intro k
    have hr : List.range' (k + 1) (n + 1) = (k + 1) :: List.range' (k + 2) n := by
      rw [List.range'_succ]
    rw [hr, List.map_cons, List.map_cons]
    show (prefOr pos d k ||| dirBit pos d (k + 1)) ::
        accOrs (prefOr pos d k ||| dirBit pos d (k + 1))
          ((List.range' (k + 2) n).map (dirBit pos d)) = _
    have hpref : prefOr pos d k ||| dirBit pos d (k + 1) = prefOr pos d (k + 1) := rfl
    rw [hpref]
    have := ih (k + 1)
    rw [show k + 1 + 1 = k + 2 by omega] at this
    rw [this]

theorem chain_eq_map_prefOr (pos opp : ℕ) (d : Fin 8) :
    accOrs 0 (dirSeq pos opp d) =
      (List.range' 1 (runLen pos opp d - 1)).map (prefOr pos d) := by
  have hseq : dirSeq pos opp d =
      (List.range' 1 (runLen pos opp d - 1)).map (dirBit pos d) := rfl
  rw [hseq]
  have := accOrs_map_dirBit pos d (runLen pos opp d - 1) 0
  simpa [prefOr] using this

theorem orList_sub {P : ℕ} : ∀ {c : List ℕ}, (∀ x ∈ c, x &&& P = x) →
    orList c &&& P = orList c := by
  intro c
  induction c with
  | nil =>
    intro _
    show (0 : ℕ) &&& P = 0
    rw [Nat.zero_and]
  | cons y t ih =>
    intro h
    show (y ||| orList t) &&& P = y ||| orList t
    rw [land_or_distrib, h y (List.mem_cons_self y t),
      ih (fun x hx => h x (List.mem_cons_of_mem y hx))]

theorem prefOr_sub_prefOr (pos : ℕ) (d : Fin 8) {k K : ℕ} (h : k ≤ K) :
    prefOr pos d k &&& prefOr pos d K = prefOr pos d k := by
  apply Nat.eq_of_testBit_eq
  intro t
  rw [Nat.testBit_and]
  cases hk : (prefOr pos d k).testBit t
  · simp
  · obtain ⟨i, h1, h2, h3⟩ := (testBit_prefOr pos d k t).mp hk
    have : (prefOr pos d K).testBit t = true :=
      (testBit_prefOr pos d K t).mpr ⟨i, h1, by omega, h3⟩
    rw [this]
    rfl

/-- Supports of distinct direction chains are disjoint masks. -/
theorem chain_supports_disjoint {pos : ℕ} (hpos : pos < 64) (opp : ℕ)
    {d d' : Fin 8} (hdd : d ≠ d') (hd : 2 ≤ runLen pos opp d)
    (hd' : 2 ≤ runLen pos opp d') :
    orList (accOrs 0 (dirSeq pos opp d)) &&& orList (accOrs 0 (dirSeq pos opp d')) = 0 := by
  have hcap := runLen_le_cap pos opp d
  have hcap' := runLen_le_cap pos opp d'
  have hsub : orList (accOrs 0 (dirSeq pos opp d)) &&& prefOr pos d (dirCap pos d) =
      orList (accOrs 0 (dirSeq pos opp d)) := by
    rw [chain_eq_map_prefOr]
    apply orList_sub
    intro x hx
    obtain ⟨i, hi, rfl⟩ := List.mem_map.mp hx
    have hi' := List.mem_range'_1.mp hi
    exact prefOr_sub_prefOr pos d (by omega)
  have hsub' : orList (accOrs 0 (dirSeq pos opp d')) &&& prefOr pos d' (dirCap pos d') =
      orList (accOrs 0 (dirSeq pos opp d')) := by
    rw [chain_eq_map_prefOr]
    apply orList_sub
    intro x hx
    obtain ⟨i, hi, rfl⟩ := List.mem_map.mp hx
    have hi' := List.mem_range'_1.mp hi
    exact prefOr_sub_prefOr pos d' (by omega)
  have hPP : prefOr pos d (dirCap pos d) &&& orList (accOrs 0 (dirSeq pos opp d')) = 0 := by
    rw [Nat.and_comm]
    exact land_zero_of_sub hsub'
      (prefOr_disjoint hpos (by exact fun h => hdd h.symm) (le_refl _) (le_refl _))
  exact land_zero_of_sub hsub hPP

theorem orList_eq_zero : ∀ {l : List ℕ}, (∀ x ∈ l, x = 0) → orList l = 0 := by
  intro l
  induction l with
  | nil => intro _; rfl
  | cons y t ih =>
    intro h
    show y ||| orList t = 0
    rw [h y (List.mem_cons_self y t), ih (fun x hx => h x (List.mem_cons_of_mem y hx)),
      Nat.zero_or]

theorem mem_chain (pos opp : ℕ) (d : Fin 8) (y : ℕ) :
    y ∈ accOrs 0 (dirSeq pos opp d) ↔
      ∃ k, 1 ≤ k ∧ k ≤ runLen pos opp d - 1 ∧ y = prefOr pos d k := by
  rw [chain_eq_map_prefOr, List.mem_map]
  constructor
  · rintro ⟨i, hi, rfl⟩
    have h := List.mem_range'_1.mp hi
    exact ⟨i, h.1, by omega, rfl⟩
  · rintro ⟨k, h1, h2, rfl⟩
    exact ⟨k, List.mem_range'_1.mpr ⟨h1, by omega⟩, rfl⟩

theorem chain_length (pos opp : ℕ) (d : Fin 8) :
    (accOrs 0 (dirSeq pos opp d)).length = runLen pos opp d - 1 := by
  rw [chain_eq_map_prefOr, List.length_map, List.length_range']

theorem chain_nodup {pos : ℕ} (hpos : pos < 64) (opp : ℕ) (d : Fin 8) :
    (accOrs 0 (dirSeq pos opp d)).Nodup := by
  rw [chain_eq_map_prefOr]
  have hcap := runLen_le_cap pos opp d
  refine List.Nodup.map_on ?_ (List.nodup_range' ..)
  intro i hi j hj heq
  have hi' := List.mem_range'_1.mp hi
  have hj' := List.mem_range'_1.mp hj
  by_contra hne
  rcases Nat.lt_or_ge i j with hlt | hge
  · exact prefOr_inj hpos hlt (by omega) heq
  · exact prefOr_inj hpos (by omega) (by omega) heq.symm

theorem chain_nonzero {pos : ℕ} (opp : ℕ) (d : Fin 8) {y : ℕ}
    (hy : y ∈ accOrs 0 (dirSeq pos opp d)) : y ≠ 0 := by
  rw [chain_eq_map_prefOr] at hy
  obtain ⟨i, hi, rfl⟩ := List.mem_map.mp hy
  exact prefOr_nonzero (List.mem_range'_1.mp hi).1

theorem orList_map_filter (g : Fin 8 → ℕ) (q : Fin 8 → Bool) :
    ∀ l : List (Fin 8), (∀ d ∈ l, q d = false → g d = 0) →
      orList ((l.filter q).map g) = orList (l.map g) := by
  intro l
  induction l with
  | nil => intro _; rfl
  | cons a t ih =>
    intro h
    have ht : ∀ d ∈ t, q d = false → g d = 0 :=
      fun d hd => h d (List.mem_cons_of_mem a hd)
    cases hq : q a
    · rw [List.filter_cons_of_neg (by simp [hq]), List.map_cons, ih ht]
      show _ = g a ||| orList (t.map g)
      rw [h a (List.mem_cons_self a t) hq, Nat.zero_or]
    · rw [List.filter_cons_of_pos (by simp [hq]), List.map_cons, List.map_cons]
      show g a ||| orList ((t.filter q).map g) = g a ||| orList (t.map g)
      rw [ih ht]

theorem exists_fun_of_picks (pos opp : ℕ) :
    ∀ (fd : List (Fin 8)), fd.Nodup →
    ∀ ys, List.Forall₂ (fun y d => y = 0 ∨ y ∈ accOrs 0 (dirSeq pos opp d)) ys fd →
    ∃ k : Fin 8 → ℕ,
      (∀ d ∈ fd, k d ≤ runLen pos opp d - 1) ∧ (∀ d, d ∉ fd → k d = 0) ∧
      orList ys = orList (fd.map (fun d => prefOr pos d (k d))) := by
  intro fd
  induction fd with
  | nil =>
    intro _ ys hys
    rw [List.forall₂_nil_right_iff.mp hys]
    exact ⟨fun _ => 0, fun d hd => absurd hd (List.not_mem_nil d), fun _ _ => rfl, rfl⟩
  | cons d fd' ih =>
    intro hN ys hys
    have hdN : d ∉ fd' := (List.nodup_cons.mp hN).1
    have hN' : fd'.Nodup := (List.nodup_cons.mp hN).2
    obtain ⟨y, ys', hyd, hys', rfl⟩ := List.forall₂_cons_right_iff.mp hys
    obtain ⟨k', hk1, hk2, hor⟩ := ih hN' ys' hys'
    have hkd : ∃ kd, kd ≤ runLen pos opp d - 1 ∧ y = prefOr pos d kd := by
      rcases hyd with rfl | hmem
      · exact ⟨0, Nat.zero_le _, rfl⟩
      · obtain ⟨kd, _, h2, rfl⟩ := (mem_chain pos opp d y).mp hmem
        exact ⟨kd, h2, rfl⟩
    obtain ⟨kd, hkdle, rfl⟩ := hkd
    refine ⟨Function.update k' d kd, ?_, ?_, ?_⟩
    · intro e he
      rcases List.mem_cons.mp he with rfl | he'
      · rw [Function.update_same]; exact hkdle
      · rw [Function.update_noteq (fun hc => hdN (by rw [← hc]; exact he'))]
        exact hk1 e he'
    · intro e he
      rw [List.mem_cons, not_or] at he
      rw [Function.update_noteq he.1]
      exact hk2 e he.2
    · rw [List.map_cons]
      show prefOr pos d kd ||| orList ys' = _ ||| orList _
      rw [Function.update_same, hor]
      congr 1
      apply congrArg
      apply List.map_congr_left
      intro e he
      rw [Function.update_noteq (fun hc => hdN (by rw [← hc]; exact he))]

theorem picks_of_fun (pos opp : ℕ) (fd : List (Fin 8)) (k : Fin 8 → ℕ)
    (hk : ∀ d ∈ fd, k d ≤ runLen pos opp d - 1) :
    List.Forall₂ (fun y d => y = 0 ∨ y ∈ accOrs 0 (dirSeq pos opp d))
      (fd.map (fun d => prefOr pos d (k d))) fd := by
  rw [List.forall₂_map_left_iff]
  apply List.forall₂_same.mpr
  intro d hd
  rcases Nat.eq_zero_or_pos (k d) with h0 | h1
  · left; rw [h0]; rfl
  · right
    exact (mem_chain pos opp d _).mpr ⟨k d, h1, hk d hd, rfl⟩

theorem nodup_tail {l : List ℕ} (h : l.Nodup) : l.tail.Nodup := by
  cases l with
  | nil => exact h
  | cons a t => exact (List.nodup_cons.mp h).2

theorem prod_map_le_prod_map (g h : Fin 8 → ℕ) :
    ∀ l : List (Fin 8), (∀ d ∈ l, g d ≤ h d) →
      (l.map g).prod ≤ (l.map h).prod := by
  intro l
  induction l with
  | nil => intro _; exact le_refl 1
  | cons a t ih =>
    intro hle
    rw [List.map_cons, List.map_cons, List.prod_cons, List.prod_cons]
    exact Nat.mul_le_mul (hle a (List.mem_cons_self a t))
      (ih (fun d hd => hle d (List.mem_cons_of_mem a hd)))

theorem prod_filter_map_le (g : Fin 8 → ℕ) (q : Fin 8 → Bool) :
    ∀ l : List (Fin 8), (∀ d ∈ l, 1 ≤ g d) →
      ((l.filter q).map g).prod ≤ (l.map g).prod := by
  intro l
  induction l with
  | nil => intro _; exact le_refl 1
  | cons a t ih =>
    intro h1
    have ht : ∀ d ∈ t, 1 ≤ g d := fun d hd => h1 d (List.mem_cons_of_mem a hd)
    cases hq : q a
    · rw [List.filter_cons_of_neg (by simp [hq]), List.map_cons, List.prod_cons]
      calc ((t.filter q).map g).prod ≤ (t.map g).prod := ih ht
        _ ≤ g a * (t.map g).prod :=
          Nat.le_mul_of_pos_left _ (h1 a (List.mem_cons_self a t))
    · rw [List.filter_cons_of_pos (by simp [hq]), List.map_cons, List.map_cons,
        List.prod_cons, List.prod_cons]
      exact Nat.mul_le_mul_left _ (ih ht)

theorem buildProd_ne_nil_eq {cs : List (List ℕ)} (h : cs ≠ []) :
    buildProd cs = cs.foldl stepProd [0] := by
  cases cs with
  | nil => exact absurd rfl h
  | cons c rest => rfl

theorem fd_mem_iff (pos opp : ℕ) (d : Fin 8) :
    d ∈ (List.finRange 8).filter (fun d => decide (2 ≤ runLen pos opp d)) ↔
      2 ≤ runLen pos opp d := by
  rw [List.mem_filter]
  simp [List.mem_finRange]

theorem fd_nodup (pos opp : ℕ) :
    ((List.finRange 8).filter (fun d => decide (2 ≤ runLen pos opp d))).Nodup :=
  (List.nodup_finRange 8).filter _

theorem retroFlip_length (pos opp : ℕ) :
    (retroFlip pos opp).length =
      if (List.finRange 8).filter (fun d => decide (2 ≤ runLen pos opp d)) = [] then 0
      else (((List.finRange 8).filter (fun d => decide (2 ≤ runLen pos opp d))).map
        (fun d => runLen pos opp d)).prod := by
  rw [retroFlip_eq_buildProd]
  cases hfd : (List.finRange 8).filter (fun d => decide (2 ≤ runLen pos opp d)) with
  | nil =>
    rw [if_pos rfl]
    have hc : chainsOf pos opp = [] := by
      unfold chainsOf
      rw [hfd]
      rfl
    rw [hc]
    rfl
  | cons e rest =>
    have hchains : chainsOf pos opp =
        (e :: rest).map (fun d => accOrs 0 (dirSeq pos opp d)) := by
      unfold chainsOf
      rw [hfd]
    rw [if_neg (List.cons_ne_nil e rest), hchains,
      buildProd_ne_nil_eq (by simp), length_foldl_stepProd, List.map_map]
    show 1 * _ = _
    rw [Nat.one_mul]
    apply congrArg
    apply List.map_congr_left
    intro d hd
    have h2 : 2 ≤ runLen pos opp d :=
      (fd_mem_iff pos opp d).mp (by rw [hfd]; exact hd)
    show (accOrs 0 (dirSeq pos opp d)).length + 1 = runLen pos opp d
    rw [chain_length]
    omega

theorem retroFlip_head (pos opp : ℕ) (h : retroFlip pos opp ≠ []) :
    (retroFlip pos opp).head? = some 0 := by
  cases hcs : chainsOf pos opp with
  | nil =>
    exfalso
    apply h
    rw [retroFlip_eq_buildProd, hcs]
    rfl
  | cons c rest =>
    rw [retroFlip_eq_buildProd, hcs, buildProd_ne_nil_eq (List.cons_ne_nil _ _),
      head?_foldl_stepProd _ _ (by simp)]
    rfl

theorem retroFlip_nodup {pos : ℕ} (hpos : pos < 64) (opp : ℕ) :
    (retroFlip pos opp).Nodup := by
  rw [retroFlip_eq_buildProd]
  cases hcs : chainsOf pos opp with
  | nil => exact List.nodup_nil
  | cons c rest =>
    rw [buildProd_ne_nil_eq (List.cons_ne_nil _ _), ← hcs]
    apply nodup_foldl_stepProd
    · exact List.nodup_singleton 0
    · intro a ha c' _
      rw [List.mem_singleton] at ha
      rw [ha, Nat.zero_and]
    · intro c' hc'
      unfold chainsOf at hc'
      obtain ⟨d, _, rfl⟩ := List.mem_map.mp hc'
      exact chain_nodup hpos opp d
    · intro c' hc' x hx
      unfold chainsOf at hc'
      obtain ⟨d, _, rfl⟩ := List.mem_map.mp hc'
      exact chain_nonzero opp d hx
    · unfold chainsOf
      rw [List.pairwise_map]
      apply List.Pairwise.imp_of_mem ?_ (fd_nodup pos opp)
      intro d d' hd hd' hne
      exact chain_supports_disjoint hpos opp hne
        ((fd_mem_iff pos opp d).mp hd) ((fd_mem_iff pos opp d').mp hd')

theorem retroFlip_tail_mem {pos : ℕ} (hpos : pos < 64) (opp : ℕ) (F : ℕ) :
    F ∈ (retroFlip pos opp).tail ↔
      F ≠ 0 ∧ ∃ k : Fin 8 → ℕ,
        (∀ d, k d ≤ runLen pos opp d - 1 ∧ (runLen pos opp d < 2 → k d = 0)) ∧
        F = orList ((List.finRange 8).map (fun d => prefOr pos d (k d))) := by
  cases hfd : (List.finRange 8).filter (fun d => decide (2 ≤ runLen pos opp d)) with
  | nil =>
    have hnil : retroFlip pos opp = [] := by
      rw [retroFlip_eq_buildProd]
      have hc : chainsOf pos opp = [] := by
        unfold chainsOf
        rw [hfd]
        rfl
      rw [hc]
      rfl
    rw [hnil]
    constructor
    · intro h
      exact absurd h (List.not_mem_nil F)
    · rintro ⟨hF, k, hk, rfl⟩
      exfalso
      apply hF
      apply orList_eq_zero
      intro x hx
      obtain ⟨d, _, rfl⟩ := List.mem_map.mp hx
      have hlt : runLen pos opp d < 2 := by
        by_contra hge
        have hmem : d ∈ (List.finRange 8).filter
            (fun d => decide (2 ≤ runLen pos opp d)) :=
          (fd_mem_iff pos opp d).mpr (by omega)
        rw [hfd] at hmem
        exact absurd hmem (List.not_mem_nil d)
      rw [(hk d).2 hlt]
      rfl
  | cons e rest =>
    have hcsne : chainsOf pos opp ≠ [] := by
      unfold chainsOf
      rw [hfd]
      simp
    have hL : retroFlip pos opp = (chainsOf pos opp).foldl stepProd [0] := by
      rw [retroFlip_eq_buildProd, buildProd_ne_nil_eq hcsne]
    have hLne : retroFlip pos opp ≠ [] := by
      rw [hL]
      exact foldl_stepProd_ne_nil _ _ (by simp)
    have hnd : (retroFlip pos opp).Nodup := retroFlip_nodup hpos opp
    obtain ⟨t, ht⟩ : ∃ t, retroFlip pos opp = 0 :: t := by
      have hhead := retroFlip_head pos opp hLne
      cases hc : retroFlip pos opp with
      | nil => exact absurd hc hLne
      | cons a t' =>
        rw [hc] at hhead
        have ha : a = 0 := by simpa using hhead
        exact ⟨t', by rw [ha]⟩
    have h0t : (0 : ℕ) ∉ t := by
      rw [ht] at hnd
      exact (List.nodup_cons.mp hnd).1
    have htail : (retroFlip pos opp).tail = t := by
      rw [ht]
      rfl
    rw [htail]
    have hmemL : ∀ G : ℕ, G ∈ retroFlip pos opp ↔
        ∃ ys, List.Forall₂ (fun y c => y = 0 ∨ y ∈ c) ys (chainsOf pos opp) ∧
          G = orList ys := by
      intro G
      rw [hL, mem_foldl_stepProd]
      constructor
      · rintro ⟨a, ha, ys, h1, rfl⟩
        rw [List.mem_singleton] at ha
        exact ⟨ys, h1, by rw [ha, Nat.zero_or]⟩
      · rintro ⟨ys, h1, rfl⟩
        exact ⟨0, List.mem_singleton.mpr rfl, ys, h1, (Nat.zero_or _).symm⟩
    constructor
    · intro hFt
      have hFL : F ∈ retroFlip pos opp := by
        rw [ht]
        exact List.mem_cons_of_mem 0 hFt
      have hF0 : F ≠ 0 := fun h => h0t (h ▸ hFt)
      refine ⟨hF0, ?_⟩
      obtain ⟨ys, hys, rfl⟩ := (hmemL F).mp hFL
      unfold chainsOf at hys
      rw [List.forall₂_map_right_iff] at hys
      obtain ⟨k, hk1, hk2, hor⟩ :=
        exists_fun_of_picks pos opp _ (fd_nodup pos opp) ys hys
      refine ⟨k, ?_, ?_⟩
      · intro d
        by_cases hd : d ∈ (List.finRange 8).filter
            (fun d => decide (2 ≤ runLen pos opp d))
        · refine ⟨hk1 d hd, fun hlt => ?_⟩
          have := (fd_mem_iff pos opp d).mp hd
          omega
        · have hz := hk2 d hd
          exact ⟨by omega, fun _ => hz⟩
      · rw [hor]
        rw [← orList_map_filter (fun d => prefOr pos d (k d))
          (fun d => decide (2 ≤ runLen pos opp d)) (List.finRange 8) ?_]
        intro d _ hq
        have hdn : d ∉ (List.finRange 8).filter
            (fun d => decide (2 ≤ runLen pos opp d)) := by
          rw [fd_mem_iff]
          simpa using hq
        show prefOr pos d (k d) = 0
        rw [hk2 d hdn]
        rfl
    · rintro ⟨hF0, k, hk, rfl⟩
      have hkfd : ∀ d ∈ (List.finRange 8).filter
          (fun d => decide (2 ≤ runLen pos opp d)), k d ≤ runLen pos opp d - 1 :=
        fun d _ => (hk d).1
      have hFL : orList ((List.finRange 8).map (fun d => prefOr pos d (k d))) ∈
          retroFlip pos opp := by
        apply (hmemL _).mpr
        refine ⟨((List.finRange 8).filter
          (fun d => decide (2 ≤ runLen pos opp d))).map
            (fun d => prefOr pos d (k d)), ?_, ?_⟩
        · unfold chainsOf
          rw [List.forall₂_map_right_iff]
          exact picks_of_fun pos opp _ k hkfd
        · rw [orList_map_filter (fun d => prefOr pos d (k d))
            (fun d => decide (2 ≤ runLen pos opp d)) (List.finRange 8) ?_]
          intro d _ hq
          have hdn : d ∉ (List.finRange 8).filter
              (fun d => decide (2 ≤ runLen pos opp d)) := by
            rw [fd_mem_iff]
            simpa using hq
          have hlt : runLen pos opp d < 2 := by
            rw [fd_mem_iff] at hdn
            omega
          show prefOr pos d (k d) = 0
          rw [(hk d).2 hlt]
          rfl
      rw [ht] at hFL
      rcases List.mem_cons.mp hFL with h0 | hmem
      · exact absurd h0 hF0
      · exact hmem

/-- C4: for `pos < 64` with `pos` an opponent stone off the four center squares,
`retrospective_flip` fills the buffer so that its length is the product of the
run lengths `l_d` over the directions with `l_d ≥ 2` (and `0` when no direction
qualifies), the first entry is the sentinel `0`, and the remaining entries are
exactly the distinct nonzero ORs obtained by choosing, per direction, a prefix
of at most `l_d - 1` consecutive opponent stones. -/
theorem c4_retroflip_enumeration (pos opp : ℕ) (hpos : pos < 64)
    (hopp : opp.testBit pos = true) (hcenter : (1 <<< pos) &&& CENTER = 0) :
    (retroFlip pos opp).length =
      (if ∀ d : Fin 8, runStones pos opp d < 2 then 0
       else (((List.finRange 8).filter
          (fun d => decide (2 ≤ runStones pos opp d))).map
            (fun d => runStones pos opp d)).prod) ∧
    (retroFlip pos opp ≠ [] → (retroFlip pos opp).head? = some 0) ∧
    (retroFlip pos opp).tail.Nodup ∧
    (∀ F : ℕ, F ∈ (retroFlip pos opp).tail ↔
      F ≠ 0 ∧ ∃ k : Fin 8 → ℕ,
        (∀ d : Fin 8, k d ≤ runStones pos opp d - 1 ∧
          (runStones pos opp d < 2 → k d = 0)) ∧
        F = orList ((List.finRange 8).map (fun d => prefOr pos d (k d)))) := by
  have hcv : ∀ d, (2 ≤ runLen pos opp d ↔ 2 ≤ runStones pos opp d) :=
    fun d => (runLen_runStones hpos opp d).1
  have heqv : ∀ d, 2 ≤ runLen pos opp d → runLen pos opp d = runStones pos opp d :=
    fun d => (runLen_runStones hpos opp d).2
  refine ⟨?_, retroFlip_head pos opp, nodup_tail (retroFlip_nodup hpos opp), ?_⟩
  · rw [retroFlip_length]
    have hfilt : (List.finRange 8).filter (fun d => decide (2 ≤ runLen pos opp d)) =
        (List.finRange 8).filter (fun d => decide (2 ≤ runStones pos opp d)) :=
      List.filter_congr (fun d _ => decide_eq_decide.mpr (hcv d))
    rw [hfilt]
    have hmap : ((List.finRange 8).filter
          (fun d => decide (2 ≤ runStones pos opp d))).map
            (fun d => runLen pos opp d) =
        ((List.finRange 8).filter
          (fun d => decide (2 ≤ runStones pos opp d))).map
            (fun d => runStones pos opp d) := by
      apply List.map_congr_left
      intro d hd
      rw [List.mem_filter] at hd
      exact heqv d ((hcv d).mpr (of_decide_eq_true hd.2))
    rw [hmap]
    apply if_congr ?_ rfl rfl
    constructor
    · intro h d
      have hd := (List.filter_eq_nil.mp h) d (List.mem_finRange d)
      simp only [decide_eq_true_eq] at hd
      omega
    · intro h
      apply List.filter_eq_nil.mpr
      intro d _
      simp only [decide_eq_true_eq]
      have := h d
      omega
  · intro F
    rw [retroFlip_tail_mem hpos opp F]
    apply and_congr_right
    intro _
    apply exists_congr
    intro k
    apply and_congr_left
    intro _
    apply forall_congr'
    intro d
    by_cases h2 : 2 ≤ runLen pos opp d
    · rw [heqv d h2]
    · have h2' : ¬ 2 ≤ runStones pos opp d := fun hs => h2 ((hcv d).mpr hs)
      constructor
      · rintro ⟨_, hc⟩
        have hz := hc (by omega)
        exact ⟨by omega, fun _ => hz⟩
      · rintro ⟨_, hc⟩
        have hz := hc (by omega)
        exact ⟨by omega, fun _ => hz⟩

theorem c4_retroflip_enumeration_witness :
    19 < 64 ∧ (3670016 : ℕ).testBit 19 = true ∧ (1 <<< 19) &&& CENTER = 0 ∧
    ((retroFlip 19 3670016).length =
      (if ∀ d : Fin 8, runStones 19 3670016 d < 2 then 0
       else (((List.finRange 8).filter
          (fun d => decide (2 ≤ runStones 19 3670016 d))).map
            (fun d => runStones 19 3670016 d)).prod) ∧
    (retroFlip 19 3670016 ≠ [] → (retroFlip 19 3670016).head? = some 0) ∧
    (retroFlip 19 3670016).tail.Nodup ∧
    (∀ F : ℕ, F ∈ (retroFlip 19 3670016).tail ↔
      F ≠ 0 ∧ ∃ k : Fin 8 → ℕ,
        (∀ d : Fin 8, k d ≤ runStones 19 3670016 d - 1 ∧
          (runStones 19 3670016 d < 2 → k d = 0)) ∧
        F = orList ((List.finRange 8).map (fun d => prefOr 19 d (k d))))) :=
  ⟨by decide, by decide, by decide,
    c4_retroflip_enumeration 19 3670016 (by decide) (by decide) (by decide)⟩

theorem dirCap_prod_le :
    ∀ p : Fin 64, (1 <<< p.val) &&& CENTER = 0 →
      ((List.finRange 8).map (fun d => max (dirCap p.val d) 1)).prod ≤ 10000 := by
  decide

/-- C7: under `retrospective_flip`'s preconditions the accumulator never
outgrows the caller's 10,000-entry buffer: the number of enumerated flip sets
is at most the product of the per-direction run-length caps, which never
exceeds 10,000 on an 8×8 board, so no out-of-bounds access can occur. -/
theorem c7_retroflip_buffer_bound (pos opp : ℕ) (hpos : pos < 64)
    (hopp : opp.testBit pos = true) (hcenter : (1 <<< pos) &&& CENTER = 0) :
    (retroFlip pos opp).length ≤ 10000 := by
  rw [retroFlip_length]
  split
  · exact Nat.zero_le _
  · calc (((List.finRange 8).filter
          (fun d => decide (2 ≤ runLen pos opp d))).map
            (fun d => runLen pos opp d)).prod
        ≤ (((List.finRange 8).filter
          (fun d => decide (2 ≤ runLen pos opp d))).map
            (fun d => max (dirCap pos d) 1)).prod :=
          prod_map_le_prod_map _ _ _
            (fun d _ => le_trans (runLen_le_cap pos opp d) (le_max_left _ _))
      _ ≤ ((List.finRange 8).map (fun d => max (dirCap pos d) 1)).prod :=
          prod_filter_map_le _ _ _ (fun d _ => le_max_right _ _)
      _ ≤ 10000 := dirCap_prod_le (⟨pos, hpos⟩ : Fin 64) hcenter

theorem c7_retroflip_buffer_bound_witness :
    19 < 64 ∧ (3670016 : ℕ).testBit 19 = true ∧ (1 <<< 19) &&& CENTER = 0 ∧
    (retroFlip 19 3670016).length ≤ 10000 :=
  ⟨by decide, by decide, by decide,
    c7_retroflip_buffer_bound 19 3670016 (by decide) (by decide) (by decide)⟩

theorem insSorted_perm (x : ℕ) : ∀ l : List ℕ, (insSorted x l).Perm (x :: l) := by
  intro l
  induction l with
  | nil => exact List.Perm.refl _
  | cons y ys ih =>
    unfold insSorted
    split
    · exact List.Perm.refl _
    · exact (ih.cons y).trans (List.Perm.swap x y ys)

theorem sortAsc_perm : ∀ l : List ℕ, (sortAsc l).Perm l := by
  intro l
  induction l with
  | nil => exact List.Perm.refl _
  | cons a t ih =>
    show (insSorted a (sortAsc t)).Perm (a :: t)
    exact (insSorted_perm a (sortAsc t)).trans (ih.cons a)

theorem insSorted_sorted (x : ℕ) : ∀ {l : List ℕ}, l.Pairwise (· ≤ ·) →
    (insSorted x l).Pairwise (· ≤ ·) := by
  intro l
  induction l with
  | nil => intro _; simp [insSorted]
  | cons y ys ih =>
    intro h
    obtain ⟨hy, hys⟩ := List.pairwise_cons.mp h
    unfold insSorted
    split
    · rename_i hxy
      refine List.pairwise_cons.mpr ⟨?_, h⟩
      intro z hz
      rcases List.mem_cons.mp hz with rfl | hz'
      · exact hxy
      · exact le_trans hxy (hy z hz')
    · rename_i hxy
      have hyx : y ≤ x := Nat.le_of_not_le hxy
      refine List.pairwise_cons.mpr ⟨?_, ih hys⟩
      intro z hz
      have hz' := (insSorted_perm x ys).mem_iff.mp hz
      rcases List.mem_cons.mp hz' with rfl | hz''
      · exact hyx
      · exact hy z hz''

theorem sortAsc_sorted : ∀ l : List ℕ, (sortAsc l).Pairwise (· ≤ ·) := by
  intro l
  induction l with
  | nil => exact List.Pairwise.nil
  | cons a t ih => exact insSorted_sorted a ih

theorem revMergeAux_mem : ∀ (rt rc acc : List ℕ) (x : ℕ),
    x ∈ revMergeAux rt rc acc ↔ x ∈ rt ∨ x ∈ rc ∨ x ∈ acc := by
  intro rt rc acc
  induction rt, rc, acc using revMergeAux.induct with
  | case1 acc =>
    intro x
    simp [revMergeAux]
  | case2 t rt acc ih =>
    intro x
    rw [revMergeAux, ih x]
    simp [List.mem_cons]
    tauto
  | case3 c rc acc ih =>
    intro x
    rw [revMergeAux, ih x]
    simp [List.mem_cons]
    tauto
  | case4 t rt c rc acc hc ih =>
    intro x
    rw [revMergeAux, if_pos hc, ih x]
    simp [List.mem_cons]
    tauto
  | case5 t rt c rc acc hc ih =>
    intro x
    rw [revMergeAux, if_neg hc, ih x]
    simp [List.mem_cons]
    tauto

theorem revMergeAux_sorted : ∀ (rt rc acc : List ℕ),
    rt.Pairwise (· > ·) → rc.Pairwise (· > ·) → acc.Pairwise (· < ·) →
    (∀ x ∈ rt, ∀ y ∈ acc, x < y) → (∀ x ∈ rc, ∀ y ∈ acc, x < y) →
    (∀ x ∈ rt, ∀ y ∈ rc, x ≠ y) →
    (revMergeAux rt rc acc).Pairwise (· < ·) := by
  intro rt rc acc
  induction rt, rc, acc using revMergeAux.induct with
  | case1 acc =>
    intro _ _ hacc _ _ _
    rw [revMergeAux]
    exact hacc
  | case2 t rt acc ih =>
    intro h1 _ hacc h4 _ _
    rw [revMergeAux]
    obtain ⟨ht, hrt⟩ := List.pairwise_cons.mp h1
    apply ih hrt List.Pairwise.nil
    · refine List.pairwise_cons.mpr ⟨?_, hacc⟩
      exact h4 t (List.mem_cons_self t rt)
    · intro x hx y hy
      rcases List.mem_cons.mp hy with rfl | hy'
      · exact ht x hx
      · exact h4 x (List.mem_cons_of_mem t hx) y hy'
    · intro x hx
      exact absurd hx (List.not_mem_nil x)
    · intro x hx y hy
      exact absurd hy (List.not_mem_nil y)
  | case3 c rc acc ih =>
    intro _ h2 hacc _ h5 _
    rw [revMergeAux]
    obtain ⟨hc, hrc⟩ := List.pairwise_cons.mp h2
    apply ih List.Pairwise.nil hrc
    · refine List.pairwise_cons.mpr ⟨?_, hacc⟩
      exact h5 c (List.mem_cons_self c rc)
    · intro x hx
      exact absurd hx (List.not_mem_nil x)
    · intro x hx y hy
      rcases List.mem_cons.mp hy with rfl | hy'
      · exact hc x hx
      · exact h5 x (List.mem_cons_of_mem c hx) y hy'
    · intro x hx
      exact absurd hx (List.not_mem_nil x)
  | case4 t rt c rc acc hcle ih =>
    intro h1 h2 hacc h4 h5 h6
    rw [revMergeAux, if_pos hcle]
    obtain ⟨ht, hrt⟩ := List.pairwise_cons.mp h1
    have hclt : c < t :=
      Nat.lt_of_le_of_ne hcle
        (fun hce => h6 t (List.mem_cons_self t rt) c (List.mem_cons_self c rc)
          hce.symm)
    apply ih hrt h2
    · refine List.pairwise_cons.mpr ⟨?_, hacc⟩
      exact h4 t (List.mem_cons_self t rt)
    · intro x hx y hy
      rcases List.mem_cons.mp hy with rfl | hy'
      · exact ht x hx
      · exact h4 x (List.mem_cons_of_mem t hx) y hy'
    · intro x hx y hy
      rcases List.mem_cons.mp hy with rfl | hy'
      · rcases List.mem_cons.mp hx with rfl | hx'
        · exact hclt
        · exact lt_trans ((List.pairwise_cons.mp h2).1 x hx') hclt
      · exact h5 x hx y hy'
    · intro x hx y hy
      exact h6 x (List.mem_cons_of_mem t hx) y hy
  | case5 t rt c rc acc hcle ih =>
    intro h1 h2 hacc h4 h5 h6
    rw [revMergeAux, if_neg hcle]
    obtain ⟨hc, hrc⟩ := List.pairwise_cons.mp h2
    have htlt : t < c := Nat.lt_of_not_le hcle
    apply ih h1 hrc
    · refine List.pairwise_cons.mpr ⟨?_, hacc⟩
      exact h5 c (List.mem_cons_self c rc)
    · intro x hx y hy
      rcases List.mem_cons.mp hy with rfl | hy'
      · rcases List.mem_cons.mp hx with rfl | hx'
        · exact htlt
        · exact lt_trans ((List.pairwise_cons.mp h1).1 x hx') htlt
      · exact h4 x hx y hy'
    · intro x hx y hy
      rcases List.mem_cons.mp hy with rfl | hy'
      · exact hc x hx
      · exact h5 x (List.mem_cons_of_mem c hx) y hy'
    · intro x hx y hy
      exact h6 x hx y (List.mem_cons_of_mem c hy)

theorem getDN_mem : ∀ (t : List ℕ) (i : ℕ), i < t.length → t.getD i 0 ∈ t := by
  intro t
  induction t with
  | nil => intro i hi; simp at hi
  | cons a t' ih =>
    intro i hi
    cases i with
    | zero => exact List.mem_cons_self a t'
    | succ j => exact List.mem_cons_of_mem a (ih j (by simpa using hi))

theorem mem_getDN : ∀ (t : List ℕ) (x : ℕ), x ∈ t →
    ∃ i, i < t.length ∧ t.getD i 0 = x := by
  intro t
  induction t with
  | nil => intro x hx; exact absurd hx (List.not_mem_nil x)
  | cons a t' ih =>
    intro x hx
    rcases List.mem_cons.mp hx with rfl | hx'
    · exact ⟨0, by simp, rfl⟩
    · obtain ⟨i, h1, h2⟩ := ih x hx'
      exact ⟨i + 1, by simpa using h1, h2⟩

theorem getDN_sorted_lt : ∀ (t : List ℕ), t.Pairwise (· < ·) →
    ∀ i j, i < j → j < t.length → t.getD i 0 < t.getD j 0 := by
  intro t
  induction t with
  | nil => intro _ i j _ hj; simp at hj
  | cons a t' ih =>
    intro hs i j hij hj
    obtain ⟨ha, hs'⟩ := List.pairwise_cons.mp hs
    cases i with
    | zero =>
      cases j with
      | zero => omega
      | succ j' =>
        exact ha _ (getDN_mem t' j' (by simpa using hj))
    | succ i' =>
      cases j with
      | zero => omega
      | succ j' => exact ih hs' i' j' (by omega) (by simpa using hj)

theorem bsearchAux_correct (t : List ℕ) (key : ℕ) (hsorted : t.Pairwise (· < ·)) :
    ∀ fuel lo hi, hi ≤ t.length → hi - lo ≤ fuel →
      (bsearchAux t key fuel lo hi = true ↔
        ∃ i, lo ≤ i ∧ i < hi ∧ t.getD i 0 = key) := by
  intro fuel
  induction fuel with
  | zero =>
    intro lo hi _ hf
    constructor
    · intro h
      exact absurd h Bool.false_ne_true
    · rintro ⟨i, h1, h2, -⟩
      omega
  | succ fuel ih =>
    intro lo hi hhi hf
    by_cases hlohi : hi ≤ lo
    · have hred : bsearchAux t key (fuel + 1) lo hi = false := by
        conv_lhs => unfold bsearchAux
        rw [if_pos hlohi]
      rw [hred]
      constructor
      · intro h
        exact absurd h Bool.false_ne_true
      · rintro ⟨i, h1, h2, -⟩
        omega
    · have hmidlo : lo ≤ (lo + hi) / 2 := by omega
      have hmidhi : (lo + hi) / 2 < hi := by omega
      rcases Nat.lt_trichotomy (t.getD ((lo + hi) / 2) 0) key with hv | hv | hv
      · have hred : bsearchAux t key (fuel + 1) lo hi =
            bsearchAux t key fuel ((lo + hi) / 2 + 1) hi := by
          conv_lhs => unfold bsearchAux
          rw [if_neg hlohi, if_pos hv]
        rw [hred, ih _ _ hhi (by omega)]
        constructor
        · rintro ⟨i, h1, h2, h3⟩
          exact ⟨i, by omega, h2, h3⟩
        · rintro ⟨i, h1, h2, h3⟩
          refine ⟨i, ?_, h2, h3⟩
          by_contra hcon
          push_neg at hcon
          rcases Nat.lt_or_ge i ((lo + hi) / 2) with hi2 | hi2
          · have hlt := getDN_sorted_lt t hsorted i _ hi2 (by omega)
            rw [h3] at hlt
            omega
          · have hieq : i = (lo + hi) / 2 := by omega
            rw [hieq] at h3
            omega
      · have hred : bsearchAux t key (fuel + 1) lo hi = true := by
          conv_lhs => unfold bsearchAux
          rw [if_neg hlohi, if_neg (by omega), if_neg (by omega)]
        rw [hred]
        constructor
        · intro _
          exact ⟨(lo + hi) / 2, hmidlo, hmidhi, hv⟩
        · intro _
          rfl
      · have hred : bsearchAux t key (fuel + 1) lo hi =
            bsearchAux t key fuel lo ((lo + hi) / 2) := by
          conv_lhs => unfold bsearchAux
          rw [if_neg hlohi, if_neg (by omega), if_pos hv]
        rw [hred, ih _ _ (by omega) (by omega)]
        constructor
        · rintro ⟨i, h1, h2, h3⟩
          exact ⟨i, h1, by omega, h3⟩
        · rintro ⟨i, h1, h2, h3⟩
          refine ⟨i, h1, ?_, h3⟩
          by_contra hcon
          push_neg at hcon
          rcases Nat.lt_or_ge ((lo + hi) / 2) i with hi2 | hi2
          · have hlt := getDN_sorted_lt t hsorted _ i hi2 (by omega)
            rw [h3] at hlt
            omega
          · have hieq : i = (lo + hi) / 2 := by omega
            rw [hieq] at h3
            omega

theorem bsearch_mem (t : List ℕ) (key : ℕ) (hs : t.Pairwise (· < ·)) :
    bsearch t key = true ↔ key ∈ t := by
  unfold bsearch
  rw [bsearchAux_correct t key hs (t.length + 1) 0 t.length (le_refl _) (by omega)]
  constructor
  · rintro ⟨i, -, h2, h3⟩
    rw [← h3]
    exact getDN_mem t i h2
  · intro h
    obtain ⟨i, h1, h2⟩ := mem_getDN t key h
    exact ⟨i, Nat.zero_le _, h1, h2⟩

theorem merged_table {t c : List ℕ} (ht : t.Pairwise (· < ·))
    (hc : c.Nodup) (hdisj : ∀ x ∈ c, x ∉ t) :
    (revMergeAux t.reverse (sortAsc c).reverse []).Pairwise (· < ·) ∧
    (∀ x, x ∈ revMergeAux t.reverse (sortAsc c).reverse [] ↔ x ∈ t ∨ x ∈ c) := by
  have hperm := sortAsc_perm c
  have hnodup : (sortAsc c).Nodup := hperm.nodup_iff.mpr hc
  have hlt : (sortAsc c).Pairwise (· < ·) :=
    (List.Pairwise.and (sortAsc_sorted c) hnodup).imp
      (fun h => lt_of_le_of_ne h.1 h.2)
  refine ⟨?_, ?_⟩
  · apply revMergeAux_sorted
    · exact List.pairwise_reverse.mpr ht
    · exact List.pairwise_reverse.mpr hlt
    · exact List.Pairwise.nil
    · intro x _ y hy
      exact absurd hy (List.not_mem_nil y)
    · intro x _ y hy
      exact absurd hy (List.not_mem_nil y)
    · intro x hx y hy hxy
      rw [List.mem_reverse] at hx hy
      have hyc : y ∈ c := hperm.mem_iff.mp hy
      exact hdisj y hyc (hxy ▸ hx)
  · intro x
    rw [revMergeAux_mem, List.mem_reverse, List.mem_reverse, hperm.mem_iff]
    simp

/-- C5: `Btable::insert` reports `false` exactly when the key already sits in
the cache or the sorted table; otherwise it reports `true` and preserves the
invariant (strictly sorted table — so binary search stays a correct membership
test — duplicate-free cache, disjoint tiers).  When the flush fits, the two
tiers afterwards hold exactly the old keys plus the new one; when the merged
size would exceed the capacity, the cache is dropped, the table is unchanged
and `true` is still returned.  `clear` empties both tiers. -/
theorem c5_btable_invariants (bt : Btable) (uni : ℕ) (hwf : btWF bt) :
    ((btInsert bt uni).2 = false ↔ (uni ∈ bt.cache ∨ uni ∈ bt.table)) ∧
    btWF (btInsert bt uni).1 ∧
    (bt.table.length + (bt.cache.length + 1) ≤ bt.capacity →
      ∀ x : ℕ, (x ∈ (btInsert bt uni).1.cache ∨ x ∈ (btInsert bt uni).1.table) ↔
        (x = uni ∨ x ∈ bt.cache ∨ x ∈ bt.table)) ∧
    ((uni ∉ bt.cache ∧ uni ∉ bt.table ∧ bt.cacheSize ≤ bt.cache.length + 1 ∧
        bt.capacity < bt.table.length + (bt.cache.length + 1)) →
      ((btInsert bt uni).1.cache = [] ∧ (btInsert bt uni).1.table = bt.table ∧
        (btInsert bt uni).2 = true)) ∧
    ((btClear bt).table = [] ∧ (btClear bt).cache = []) ∧
    btWF (btClear bt) := by
  obtain ⟨hts, hcn, hdis⟩ := hwf
  have hclear : (btClear bt).table = [] ∧ (btClear bt).cache = [] := ⟨rfl, rfl⟩
  have hclearwf : btWF (btClear bt) :=
    ⟨List.Pairwise.nil, List.Pairwise.nil, fun x hx => absurd hx (List.not_mem_nil x)⟩
  by_cases h1 : uni ∈ bt.cache
  · have he : btInsert bt uni = (bt, false) := by
      unfold btInsert
      rw [if_pos h1]
    rw [he]
    refine ⟨by simp [h1], ⟨hts, hcn, hdis⟩, ?_, ?_, hclear, hclearwf⟩
    · intro _ x
      constructor
      · intro h
        exact Or.inr h
      · rintro (rfl | h)
        · exact Or.inl h1
        · exact h
    · rintro ⟨hn, _⟩
      exact absurd h1 hn
  · by_cases h2 : uni ∈ bt.table
    · have he : btInsert bt uni = (bt, false) := by
        unfold btInsert
        rw [if_neg h1, if_pos ((bsearch_mem bt.table uni hts).mpr h2)]
      rw [he]
      refine ⟨by simp [h2], ⟨hts, hcn, hdis⟩, ?_, ?_, hclear, hclearwf⟩
      · intro _ x
        constructor
        · intro h
          exact Or.inr h
        · rintro (rfl | h)
          · exact Or.inr h2
          · exact h
      · rintro ⟨_, hn, _⟩
        exact absurd h2 hn
    · have hcn' : (uni :: bt.cache).Nodup := List.nodup_cons.mpr ⟨h1, hcn⟩
      have hdis' : ∀ x ∈ uni :: bt.cache, x ∉ bt.table := by
        intro x hx
        rcases List.mem_cons.mp hx with rfl | hx'
        · exact h2
        · exact hdis x hx'
      by_cases hflush : bt.cacheSize ≤ bt.cache.length + 1
      · by_cases hover : bt.capacity < bt.table.length + (bt.cache.length + 1)
        · have he : btInsert bt uni = ({ bt with cache := [] }, true) := by
            unfold btInsert
            rw [if_neg h1, if_neg (fun hb => h2 ((bsearch_mem bt.table uni hts).mp hb))]
            simp only [List.length_cons]
            rw [if_pos hflush, if_pos hover]
          rw [he]
          refine ⟨by simp [h1, h2], ⟨hts, List.Pairwise.nil,
            fun x hx => absurd hx (List.not_mem_nil x)⟩, ?_, ?_, hclear, hclearwf⟩
          · intro hle
            omega
          · intro _
            exact ⟨rfl, rfl, rfl⟩
        · have hm := merged_table hts hcn' hdis'
          have he : btInsert bt uni =
              ({ bt with
                  table := revMergeAux bt.table.reverse
                    (sortAsc (uni :: bt.cache)).reverse [],
                  cache := [] }, true) := by
            unfold btInsert
            rw [if_neg h1, if_neg (fun hb => h2 ((bsearch_mem bt.table uni hts).mp hb))]
            simp only [List.length_cons]
            rw [if_pos hflush, if_neg hover]
          rw [he]
          refine ⟨by simp [h1, h2], ⟨hm.1, List.Pairwise.nil,
            fun x hx => absurd hx (List.not_mem_nil x)⟩, ?_, ?_, hclear, hclearwf⟩
          · intro _ x
            show x ∈ [] ∨ _ ↔ _
            rw [hm.2 x]
            simp only [List.not_mem_nil, false_or, List.mem_cons]
            tauto
          · rintro ⟨_, _, _, hov⟩
            exact absurd hov hover
      · have he : btInsert bt uni = ({ bt with cache := uni :: bt.cache }, true) := by
          unfold btInsert
          rw [if_neg h1, if_neg (fun hb => h2 ((bsearch_mem bt.table uni hts).mp hb))]
          simp only [List.length_cons]
          rw [if_neg hflush]
        rw [he]
        refine ⟨by simp [h1, h2], ⟨hts, hcn', hdis'⟩, ?_, ?_, hclear, hclearwf⟩
        · intro _ x
          show x ∈ uni :: bt.cache ∨ _ ↔ _
          simp only [List.mem_cons]
          tauto
        · rintro ⟨_, _, hcs, _⟩
          exact absurd hcs hflush

theorem c5_btable_invariants_witness :
    btWF ⟨2, 4, [5, 9], [3]⟩ ∧ btWF (btInsert ⟨2, 4, [5, 9], [3]⟩ 7).1 :=
  ⟨⟨by decide, by decide, by decide⟩,
    (c5_btable_invariants ⟨2, 4, [5, 9], [3]⟩ 7
      ⟨by decide, by decide, by decide⟩).2.1⟩

/-- C9: refuted — when expanding a level yields no predecessors, the driver
does not return the NotFound signal but fails with an I/O error.  On a level
file `r_5.bin` holding one record whose opponent stones all sit on the four
center squares, `process_board` contributes nothing (whatever the downstream
enumeration would do), so `process_bfs_block` reports `Ok(false)` without
creating `b_4_0.bin`; `merge_files` then tries to open `b_4_0.bin` and fails
with `NotFound`, so `process_bfs_seq` propagates an error and its
`len == 0 → Ok(false)` branch is unreachable. -/
theorem c9_empty_expansion_errors :
    ∀ expand : ℕ × ℕ → List (ℕ × ℕ),
      processBfsBlock expand 4
        (storeSet storeEmpty (FName.r 5)
          [(0x8100000000000081, 0x0000001818000000)]) 1000000 0 =
        .ok (storeSet storeEmpty (FName.r 5)
          [(0x8100000000000081, 0x0000001818000000)], false) ∧
      processBfsSeq expand 4
        (storeSet storeEmpty (FName.r 5)
          [(0x8100000000000081, 0x0000001818000000)]) 1000000 =
        .error .notFound :=
  fun _ => ⟨rfl, rfl⟩

theorem plt_irrefl (a : ℕ × ℕ) : ¬ plt a a := by
  unfold plt
  omega

theorem plt_trans {a b c : ℕ × ℕ} (h1 : plt a b) (h2 : plt b c) : plt a c := by
  unfold plt at *
  omega

theorem ple_of_plt {a b : ℕ × ℕ} (h : plt a b) : ple a b := by
  unfold ple plt at *
  omega

theorem plt_of_ple_ne {a b : ℕ × ℕ} (h1 : ple a b) (h2 : a ≠ b) : plt a b := by
  unfold ple plt at *
  rcases h1 with h1
  have : ¬ (a.1 = b.1 ∧ a.2 = b.2) := by
    intro hc
    exact h2 (Prod.ext hc.1 hc.2)
  by_cases he : a.1 = b.1
  · right
    refine ⟨he, ?_⟩
    omega
  · left
    omega

theorem keyLt_irrefl (a : (ℕ × ℕ) × ℕ) : ¬ keyLt a a := by
  unfold keyLt plt
  omega

theorem keyLt_trans {a b c : (ℕ × ℕ) × ℕ} (h1 : keyLt a b) (h2 : keyLt b c) :
    keyLt a c := by
  unfold keyLt plt at *
  obtain ⟨⟨a1, a2⟩, a3⟩ := a
  obtain ⟨⟨b1, b2⟩, b3⟩ := b
  obtain ⟨⟨c1, c2⟩, c3⟩ := c
  simp only [Prod.mk.injEq] at *
  omega

theorem keyLt_connex {a b : (ℕ × ℕ) × ℕ} (h : ¬ keyLt a b) : a = b ∨ keyLt b a := by
  unfold keyLt plt at *
  obtain ⟨⟨a1, a2⟩, a3⟩ := a
  obtain ⟨⟨b1, b2⟩, b3⟩ := b
  simp only [Prod.mk.injEq] at *
  omega

theorem foldl_minKey_mem : ∀ (cs : List ((ℕ × ℕ) × ℕ)) (c : (ℕ × ℕ) × ℕ),
    cs.foldl minKey c ∈ c :: cs := by
  intro cs
  induction cs with
  | nil => intro c; exact List.mem_singleton.mpr rfl
  | cons d ds ih =>
    intro c
    rw [List.foldl_cons]
    have h := ih (minKey c d)
    have hcd : minKey c d = d ∨ minKey c d = c := by
      unfold minKey
      split
      · exact Or.inl rfl
      · exact Or.inr rfl
    rcases List.mem_cons.mp h with he | hm
    · rcases hcd with h1 | h1
      · rw [he, h1]
        exact List.mem_cons_of_mem _ (List.mem_cons_self _ _)
      · rw [he, h1]
        exact List.mem_cons_self _ _
    · exact List.mem_cons_of_mem _ (List.mem_cons_of_mem _ hm)

theorem keyLe_trans {a b c : (ℕ × ℕ) × ℕ} (h1 : ¬ keyLt b a) (h2 : ¬ keyLt c b) :
    ¬ keyLt c a := by
  unfold keyLt plt at *
  obtain ⟨⟨a1, a2⟩, a3⟩ := a
  obtain ⟨⟨b1, b2⟩, b3⟩ := b
  obtain ⟨⟨c1, c2⟩, c3⟩ := c
  simp only [Prod.mk.injEq] at *
  omega

theorem minKey_le_left (a b : (ℕ × ℕ) × ℕ) : ¬ keyLt a (minKey a b) := by
  unfold minKey
  split
  · rename_i h
    intro hc
    exact keyLt_irrefl a (keyLt_trans hc h)
  · exact keyLt_irrefl a

theorem minKey_le_right (a b : (ℕ × ℕ) × ℕ) : ¬ keyLt b (minKey a b) := by
  unfold minKey
  split
  · exact keyLt_irrefl b
  · rename_i h
    exact h

theorem foldl_minKey_min : ∀ (cs : List ((ℕ × ℕ) × ℕ)) (c : (ℕ × ℕ) × ℕ),
    ∀ x ∈ c :: cs, ¬ keyLt x (cs.foldl minKey c) := by
  intro cs
  induction cs with
  | nil =>
    intro c x hx
    rw [List.mem_singleton.mp hx]
    exact keyLt_irrefl _
  | cons d ds ih =>
    intro c x hx
    rw [List.foldl_cons]
    have hle : ∀ y ∈ minKey c d :: ds, ¬ keyLt y (ds.foldl minKey (minKey c d)) :=
      ih (minKey c d)
    have hm := hle (minKey c d) (List.mem_cons_self _ _)
    rcases List.mem_cons.mp hx with rfl | hx'
    · exact keyLe_trans hm (minKey_le_left x d)
    · rcases List.mem_cons.mp hx' with rfl | hx''
      · exact keyLe_trans hm (minKey_le_right c x)
      · exact hle x (List.mem_cons_of_mem _ hx'')

theorem heapMin_mem {cs : List ((ℕ × ℕ) × ℕ)} {m : (ℕ × ℕ) × ℕ}
    (h : heapMin cs = some m) : m ∈ cs := by
  cases cs with
  | nil => exact absurd h (by simp [heapMin])
  | cons c cs' =>
    have hm : m = cs'.foldl minKey c := by
      unfold heapMin at h
      exact (Option.some_inj.mp h).symm
    rw [hm]
    exact foldl_minKey_mem cs' c

theorem heapMin_min {cs : List ((ℕ × ℕ) × ℕ)} {m : (ℕ × ℕ) × ℕ}
    (h : heapMin cs = some m) : ∀ x ∈ cs, ¬ keyLt x m := by
  cases cs with
  | nil => exact absurd h (by simp [heapMin])
  | cons c cs' =>
    have hm : m = cs'.foldl minKey c := by
      unfold heapMin at h
      exact (Option.some_inj.mp h).symm
    rw [hm]
    exact foldl_minKey_min cs' c

theorem heapMin_none {cs : List ((ℕ × ℕ) × ℕ)} (h : heapMin cs = none) :
    cs = [] := by
  cases cs with
  | nil => rfl
  | cons c cs' => exact absurd h (by simp [heapMin])

theorem getD_nil_of_len : ∀ (l : List (List (ℕ × ℕ))) (i : ℕ), l.length ≤ i →
    l.getD i [] = [] := by
  intro l
  induction l with
  | nil => intro i _; cases i <;> rfl
  | cons s ss ih =>
    intro i hi
    cases i with
    | zero => simp at hi
    | succ j => exact ih j (by simpa using hi)

theorem getD_set_self : ∀ (l : List (List (ℕ × ℕ))) (i : ℕ)
    (v : List (ℕ × ℕ)), i < l.length → (l.set i v).getD i [] = v := by
  intro l
  induction l with
  | nil => intro i v hi; simp at hi
  | cons s ss ih =>
    intro i v hi
    cases i with
    | zero => rfl
    | succ j => exact ih j v (by simpa using hi)

theorem getD_set_ne : ∀ (l : List (List (ℕ × ℕ))) (i j : ℕ)
    (v : List (ℕ × ℕ)), j ≠ i → (l.set i v).getD j [] = l.getD j [] := by
  intro l
  induction l with
  | nil => intro i j v _; cases i <;> rfl
  | cons s ss ih =>
    intro i j v hne
    cases i with
    | zero =>
      cases j with
      | zero => exact absurd rfl hne
      | succ j' => rfl
    | succ i' =>
      cases j with
      | zero => rfl
      | succ j' => exact ih i' j' v (fun h => hne (by rw [h]))

theorem getD_mem_or_nil : ∀ (l : List (List (ℕ × ℕ))) (i : ℕ),
    l.getD i [] = [] ∨ l.getD i [] ∈ l := by
  intro l
  induction l with
  | nil => intro i; cases i <;> exact Or.inl rfl
  | cons s ss ih =>
    intro i
    cases i with
    | zero => exact Or.inr (List.mem_cons_self s ss)
    | succ j =>
      rcases ih j with h | h
      · exact Or.inl h
      · exact Or.inr (List.mem_cons_of_mem s h)

theorem mem_getD_of_mem : ∀ (l : List (List (ℕ × ℕ))) (s : List (ℕ × ℕ)),
    s ∈ l → ∃ j, l.getD j [] = s := by
  intro l
  induction l with
  | nil => intro s hs; exact absurd hs (List.not_mem_nil s)
  | cons t ts ih =>
    intro s hs
    rcases List.mem_cons.mp hs with rfl | hs'
    · exact ⟨0, rfl⟩
    · obtain ⟨j, hj⟩ := ih s hs'
      exact ⟨j + 1, hj⟩

theorem mem_set_subset {v : List (ℕ × ℕ)} :
    ∀ {l : List (List (ℕ × ℕ))} {i : ℕ} {s : List (ℕ × ℕ)},
      s ∈ l.set i v → s = v ∨ s ∈ l := by
  intro l
  induction l with
  | nil => intro i s hs; simp at hs
  | cons t ts ih =>
    intro i s hs
    cases i with
    | zero =>
      rcases List.mem_cons.mp hs with rfl | hs'
      · exact Or.inl rfl
      · exact Or.inr (List.mem_cons_of_mem t hs')
    | succ j =>
      rcases List.mem_cons.mp hs with rfl | hs'
      · exact Or.inr (List.mem_cons_self _ _)
      · rcases ih hs' with h | h
        · exact Or.inl h
        · exact Or.inr (List.mem_cons_of_mem t h)

theorem candList_head : ∀ (ss : List (List (ℕ × ℕ))) (i0 : ℕ) (r : ℕ × ℕ)
    (j : ℕ), (r, j) ∈ candList i0 ss →
      i0 ≤ j ∧ (ss.getD (j - i0) []).head? = some r := by
  intro ss
  induction ss with
  | nil => intro i0 r j h; exact absurd h (List.not_mem_nil _)
  | cons s ss' ih =>
    intro i0 r j h
    cases s with
    | nil =>
      have h' := ih (i0 + 1) r j h
      refine ⟨by omega, ?_⟩
      have hj : j - i0 = (j - (i0 + 1)) + 1 := by omega
      rw [hj]
      exact h'.2
    | cons r0 rest =>
      rcases List.mem_cons.mp h with he | h'
      · obtain ⟨he1, he2⟩ := Prod.mk.injEq .. ▸ he
        subst he2
        refine ⟨le_refl _, ?_⟩
        rw [Nat.sub_self]
        rw [he1]
        rfl
      · have h'' := ih (i0 + 1) r j h'
        refine ⟨by omega, ?_⟩
        have hj : j - i0 = (j - (i0 + 1)) + 1 := by omega
        rw [hj]
        exact h''.2

theorem candList_complete : ∀ (ss : List (List (ℕ × ℕ))) (i0 j : ℕ)
    (r : ℕ × ℕ) (rest : List (ℕ × ℕ)), ss.getD j [] = r :: rest →
      (r, i0 + j) ∈ candList i0 ss := by
  intro ss
  induction ss with
  | nil =>
    intro i0 j r rest h
    cases j <;> exact absurd h (by simp)
  | cons s ss' ih =>
    intro i0 j r rest h
    cases j with
    | zero =>
      have hs : s = r :: rest := h
      rw [hs]
      exact List.mem_cons_self _ _
    | succ j' =>
      have h' := ih (i0 + 1) j' r rest h
      have harith : i0 + 1 + j' = i0 + (j' + 1) := by omega
      rw [harith] at h'
      cases s with
      | nil => exact h'
      | cons r0 rest0 => exact List.mem_cons_of_mem _ h'

theorem candList_nil : ∀ (ss : List (List (ℕ × ℕ))) (i0 : ℕ),
    candList i0 ss = [] → ∀ s ∈ ss, s = [] := by
  intro ss
  induction ss with
  | nil => intro i0 _ s hs; exact absurd hs (List.not_mem_nil s)
  | cons s ss' ih =>
    intro i0 h t ht
    cases s with
    | nil =>
      rcases List.mem_cons.mp ht with rfl | ht'
      · rfl
      · exact ih (i0 + 1) h t ht'
    | cons r0 rest => exact absurd h (by simp [candList])

theorem remTotal_set_tail : ∀ (l : List (List (ℕ × ℕ))) (i : ℕ) (r : ℕ × ℕ)
    (t : List (ℕ × ℕ)), l.getD i [] = r :: t →
      remTotal (l.set i t) + 1 = remTotal l := by
  intro l
  induction l with
  | nil =>
    intro i r t h
    cases i <;> exact absurd h (by simp)
  | cons s ss ih =>
    intro i r t h
    cases i with
    | zero =>
      have hs : s = r :: t := h
      show remTotal (t :: ss) + 1 = remTotal (s :: ss)
      unfold remTotal
      rw [hs]
      simp [List.length_cons]
      omega
    | succ j =>
      have h' := ih j r t h
      show remTotal (s :: ss.set j t) + 1 = remTotal (s :: ss)
      unfold remTotal at *
      simp only [List.map_cons, List.sum_cons]
      omega

theorem kmergeAux_succ_none {fuel : ℕ} {streams : List (List (ℕ × ℕ))}
    {last : Option (ℕ × ℕ)} {acc : List (ℕ × ℕ)}
    (h : heapMin (candList 0 streams) = none) :
    kmergeAux (fuel + 1) streams last acc = acc.reverse := by
  conv_lhs => unfold kmergeAux
  rw [h]

theorem kmergeAux_succ_some {fuel : ℕ} {streams : List (List (ℕ × ℕ))}
    {last : Option (ℕ × ℕ)} {acc : List (ℕ × ℕ)} {r : ℕ × ℕ} {idx : ℕ}
    (h : heapMin (candList 0 streams) = some (r, idx)) :
    kmergeAux (fuel + 1) streams last acc =
      if last = some r then
        kmergeAux fuel (streams.set idx (streams.getD idx []).tail) last acc
      else
        kmergeAux fuel (streams.set idx (streams.getD idx []).tail) (some r)
          (r :: acc) := by
  conv_lhs => unfold kmergeAux
  rw [h]

theorem remTotal_zero : ∀ (l : List (List (ℕ × ℕ))), remTotal l = 0 →
    ∀ s ∈ l, s = [] := by
  intro l
  induction l with
  | nil => intro _ s hs; exact absurd hs (List.not_mem_nil s)
  | cons t ts ih =>
    intro h s hs
    unfold remTotal at h
    simp only [List.map_cons, List.sum_cons] at h
    rcases List.mem_cons.mp hs with rfl | hs'
    · exact List.length_eq_zero.mp (by omega)
    · exact ih (by unfold remTotal; omega) s hs'

theorem kmergeAux_spec : ∀ (fuel : ℕ) (streams : List (List (ℕ × ℕ)))
    (last : Option (ℕ × ℕ)) (acc : List (ℕ × ℕ)),
    remTotal streams ≤ fuel →
    (∀ s ∈ streams, s.Pairwise plt) →
    acc.Pairwise (fun a b => plt b a) →
    (∀ lr, last = some lr → acc.head? = some lr ∧
      ∀ j, ∀ x ∈ streams.getD j [], ple lr x) →
    (last = none → acc = []) →
    (kmergeAux fuel streams last acc).Pairwise plt ∧
    (∀ x, x ∈ kmergeAux fuel streams last acc ↔
      x ∈ acc ∨ ∃ j, x ∈ streams.getD j []) := by
  intro fuel
  induction fuel with
  | zero =>
    intro streams last acc hfuel hsort hacc hlast hnone
    have hred : kmergeAux 0 streams last acc = acc.reverse := rfl
    rw [hred]
    have hempty : ∀ j, streams.getD j [] = [] := by
      intro j
      rcases getD_mem_or_nil streams j with h | h
      · exact h
      · exact remTotal_zero streams (Nat.le_zero.mp hfuel) _ h
    refine ⟨List.pairwise_reverse.mpr hacc, ?_⟩
    intro x
    rw [List.mem_reverse]
    constructor
    · exact Or.inl
    · rintro (h | ⟨j, hj⟩)
      · exact h
      · rw [hempty j] at hj
        exact absurd hj (List.not_mem_nil x)
  | succ fuel ih =>
    intro streams last acc hfuel hsort hacc hlast hnone
    cases hhm : heapMin (candList 0 streams) with
    | none =>
      rw [kmergeAux_succ_none hhm]
      have hempty : ∀ j, streams.getD j [] = [] := by
        intro j
        rcases getD_mem_or_nil streams j with h | h
        · exact h
        · exact candList_nil streams 0 (heapMin_none hhm) _ h
      refine ⟨List.pairwise_reverse.mpr hacc, ?_⟩
      intro x
      rw [List.mem_reverse]
      constructor
      · exact Or.inl
      · rintro (h | ⟨j, hj⟩)
        · exact h
        · rw [hempty j] at hj
          exact absurd hj (List.not_mem_nil x)
    | some m =>
      obtain ⟨r, idx⟩ := m
      have hmemc := heapMin_mem hhm
      have hminc := heapMin_min hhm
      obtain ⟨-, hhead⟩ := candList_head streams 0 r idx hmemc
      rw [Nat.sub_zero] at hhead
      have hcons : streams.getD idx [] = r :: (streams.getD idx []).tail := by
        cases hc : streams.getD idx [] with
        | nil =>
          rw [hc] at hhead
          exact absurd hhead (by simp)
        | cons a t =>
          rw [hc] at hhead
          have ha : a = r := by simpa using hhead
          rw [ha]
          rfl
      have hidx : idx < streams.length := by
        by_contra hge
        rw [getD_nil_of_len streams idx (Nat.le_of_not_lt hge)] at hcons
        exact absurd hcons.symm (List.cons_ne_nil _ _)
      have hgetDmem : ∀ (j : ℕ) (y : ℕ × ℕ) (t : List (ℕ × ℕ)),
          streams.getD j [] = y :: t → streams.getD j [] ∈ streams := by
        intro j y t hc
        rcases getD_mem_or_nil streams j with h | h
        · rw [h] at hc
          exact absurd hc.symm (List.cons_ne_nil _ _)
        · exact h
      have hsort' : ∀ s ∈ streams.set idx (streams.getD idx []).tail,
          s.Pairwise plt := by
        intro s hs
        rcases mem_set_subset hs with rfl | hs'
        · have hp := hsort _ (hgetDmem idx r _ hcons)
          rw [hcons] at hp
          exact (List.pairwise_cons.mp hp).2
        · exact hsort s hs'
      have hfuel' : remTotal (streams.set idx (streams.getD idx []).tail) ≤ fuel := by
        have := remTotal_set_tail streams idx r _ hcons
        omega
      have hple_r : ∀ j, ∀ x ∈ (streams.set idx (streams.getD idx []).tail).getD j [],
          ple r x := by
        intro j x hx
        by_cases hji : j = idx
        · subst hji
          rw [getD_set_self streams j _ hidx] at hx
          have hp := hsort _ (hgetDmem j r _ hcons)
          rw [hcons] at hp
          exact ple_of_plt ((List.pairwise_cons.mp hp).1 x hx)
        · rw [getD_set_ne streams idx j _ hji] at hx
          cases hc : streams.getD j [] with
          | nil =>
            rw [hc] at hx
            exact absurd hx (List.not_mem_nil x)
          | cons y t =>
            have hcand : (y, j) ∈ candList 0 streams := by
              have := candList_complete streams 0 j y t hc
              simpa using this
            have hnlt := hminc _ hcand
            have hry : ple r y := fun hlt => hnlt (Or.inl hlt)
            rw [hc] at hx
            rcases List.mem_cons.mp hx with rfl | hx'
            · exact hry
            · have hp := hsort _ (hgetDmem j y t hc)
              rw [hc] at hp
              exact ple_trans hry (ple_of_plt ((List.pairwise_cons.mp hp).1 x hx'))
      have hrmem : ∃ j, r ∈ streams.getD j [] :=
        ⟨idx, by rw [hcons]; exact List.mem_cons_self _ _⟩
      have hmem_conv : ∀ x : ℕ × ℕ,
          (∃ j, x ∈ (streams.set idx (streams.getD idx []).tail).getD j []) →
          ∃ j, x ∈ streams.getD j [] := by
        rintro x ⟨j, hj⟩
        by_cases hji : j = idx
        · subst hji
          rw [getD_set_self streams j _ hidx] at hj
          exact ⟨j, by rw [hcons]; exact List.mem_cons_of_mem r hj⟩
        · rw [getD_set_ne streams idx j _ hji] at hj
          exact ⟨j, hj⟩
      have hmem_conv2 : ∀ x : ℕ × ℕ, (∃ j, x ∈ streams.getD j []) → x = r ∨
          (∃ j, x ∈ (streams.set idx (streams.getD idx []).tail).getD j []) := by
        rintro x ⟨j, hj⟩
        by_cases hji : j = idx
        · subst hji
          rw [hcons] at hj
          rcases List.mem_cons.mp hj with rfl | hj'
          · exact Or.inl rfl
          · exact Or.inr ⟨j, by rw [getD_set_self streams j _ hidx]; exact hj'⟩
        · exact Or.inr ⟨j, by rw [getD_set_ne streams idx j _ hji]; exact hj⟩
      by_cases hlr : last = some r
      · obtain ⟨hh, _⟩ := hlast r hlr
        have hlast' : ∀ lr, last = some lr →
            (acc.head? = some lr ∧ ∀ j, ∀ x ∈
              (streams.set idx (streams.getD idx []).tail).getD j [], ple lr x) := by
          intro lr hlr'
          rw [hlr] at hlr'
          obtain rfl : r = lr := Option.some_inj.mp hlr'
          exact ⟨hh, hple_r⟩
        have hnone' : last = none → acc = [] := by
          intro hc
          rw [hlr] at hc
          exact absurd hc (by simp)
        have ihr := ih (streams.set idx (streams.getD idx []).tail) last acc
          hfuel' hsort' hacc hlast' hnone'
        rw [kmergeAux_succ_some hhm, if_pos hlr]
        refine ⟨ihr.1, ?_⟩
        intro x
        rw [ihr.2 x]
        constructor
        · rintro (h | hj)
          · exact Or.inl h
          · exact Or.inr (hmem_conv x hj)
        · rintro (h | hj)
          · exact Or.inl h
          · rcases hmem_conv2 x hj with rfl | hj'
            · exact Or.inl (List.mem_of_mem_head? (by rw [hh]; rfl))
            · exact Or.inr hj'
      · have haccr : ∀ y ∈ acc, plt y r := by
          cases hl : last with
          | none =>
            rw [hnone hl]
            intro y hy
            exact absurd hy (List.not_mem_nil y)
          | some lr =>
            obtain ⟨hh, hb⟩ := hlast lr hl
            have hlr_ne : lr ≠ r := fun he => hlr (by rw [hl, he])
            have hlrr : plt lr r :=
              plt_of_ple_ne (hb idx r (by rw [hcons]; exact List.mem_cons_self _ _))
                hlr_ne
            intro y hy
            cases haccs : acc with
            | nil =>
              rw [haccs] at hy
              exact absurd hy (List.not_mem_nil y)
            | cons a t =>
              rw [haccs] at hh hy hacc
              have ha : a = lr := by simpa using hh
              rcases List.mem_cons.mp hy with rfl | hy'
              · rw [ha]
                exact hlrr
              · have hya := (List.pairwise_cons.mp hacc).1 y hy'
                rw [ha] at hya
                exact plt_trans hya hlrr
        have hacc' : (r :: acc).Pairwise (fun a b => plt b a) :=
          List.pairwise_cons.mpr ⟨haccr, hacc⟩
        have hlast' : ∀ lr, (some r : Option (ℕ × ℕ)) = some lr →
            ((r :: acc).head? = some lr ∧ ∀ j, ∀ x ∈
              (streams.set idx (streams.getD idx []).tail).getD j [], ple lr x) := by
          intro lr hlr'
          obtain rfl : r = lr := Option.some_inj.mp hlr'
          exact ⟨rfl, hple_r⟩
        have hnone' : (some r : Option (ℕ × ℕ)) = none → r :: acc = [] := by
          intro hc
          exact absurd hc (by simp)
        have ihr := ih (streams.set idx (streams.getD idx []).tail) (some r)
          (r :: acc) hfuel' hsort' hacc' hlast' hnone'
        rw [kmergeAux_succ_some hhm, if_neg hlr]
        refine ⟨ihr.1, ?_⟩
        intro x
        rw [ihr.2 x]
        constructor
        · rintro (hx | hj)
          · rcases List.mem_cons.mp hx with rfl | hx'
            · exact Or.inr hrmem
            · exact Or.inl hx'
          · exact Or.inr (hmem_conv x hj)
        · rintro (hx | hj)
          · exact Or.inl (List.mem_cons_of_mem r hx)
          · rcases hmem_conv2 x hj with rfl | hj'
            · exact Or.inl (List.mem_cons_self _ _)
            · exact Or.inr hj'

theorem kmerge_spec (contents : List (List (ℕ × ℕ)))
    (hsorted : ∀ c ∈ contents, c.Pairwise plt) :
    (kmerge contents).Pairwise plt ∧
    (∀ x, x ∈ kmerge contents ↔ ∃ c ∈ contents, x ∈ c) := by
  have h := kmergeAux_spec (remTotal contents) contents none [] (le_refl _)
    hsorted List.Pairwise.nil (fun lr hl => absurd hl (by simp)) (fun _ => rfl)
  refine ⟨h.1, ?_⟩
  intro x
  rw [show kmerge contents = kmergeAux (remTotal contents) contents none []
    from rfl, h.2 x]
  constructor
  · rintro (hx | ⟨j, hj⟩)
    · exact absurd hx (List.not_mem_nil x)
    · rcases getD_mem_or_nil contents j with hn | hm
      · rw [hn] at hj
        exact absurd hj (List.not_mem_nil x)
      · exact ⟨_, hm, hj⟩
  · rintro ⟨c, hc, hx⟩
    obtain ⟨j, hj⟩ := mem_getD_of_mem contents c hc
    exact Or.inr ⟨j, by rw [hj]; exact hx⟩

theorem storeGet_set_eq (st : Store) (n : FName) (v : List (ℕ × ℕ)) :
    storeGet (storeSet st n v) n = some v := by
  show (if n = n then some v else storeGet st n) = some v
  rw [if_pos rfl]

theorem storeGet_set_ne (st : Store) (n : FName) (v : List (ℕ × ℕ)) (m : FName)
    (h : m ≠ n) : storeGet (storeSet st n v) m = storeGet st m := by
  show (if m = n then some v else storeGet st m) = storeGet st m
  rw [if_neg h]

theorem storeGet_remove_self : ∀ (st : Store) (n : FName),
    storeGet (storeRemove st n) n = none := by
  intro st
  induction st with
  | nil => intro n; rfl
  | cons e st' ih =>
    intro n
    obtain ⟨m, v⟩ := e
    show storeGet (if n = m then storeRemove st' n else (m, v) :: storeRemove st' n)
      n = none
    split
    · exact ih n
    · rename_i hne
      show (if n = m then some v else storeGet (storeRemove st' n) n) = none
      rw [if_neg hne]
      exact ih n

theorem storeGet_remove_ne : ∀ (st : Store) (n m : FName), m ≠ n →
    storeGet (storeRemove st n) m = storeGet st m := by
  intro st
  induction st with
  | nil => intro n m _; rfl
  | cons e st' ih =>
    intro n m h
    obtain ⟨k, v⟩ := e
    show storeGet (if n = k then storeRemove st' n else (k, v) :: storeRemove st' n)
      m = (if m = k then some v else storeGet st' m)
    split
    · rename_i hnk
      rw [ih n m h, if_neg (fun hmk => h (hmk.trans hnk.symm))]
    · show (if m = k then some v else storeGet (storeRemove st' n) m) =
        (if m = k then some v else storeGet st' m)
      split
      · rfl
      · exact ih n m h

theorem removeAll_spec : ∀ (names : List FName) (st : Store), names.Nodup →
    (∀ n ∈ names, storeHas st n = true) →
    ∃ st', removeAll st names = some st' ∧
      (∀ n ∈ names, storeGet st' n = none) ∧
      (∀ m, m ∉ names → storeGet st' m = storeGet st m) := by
  intro names
  induction names with
  | nil =>
    intro st _ _
    exact ⟨st, rfl, fun n hn => absurd hn (List.not_mem_nil n), fun _ _ => rfl⟩
  | cons n ns ih =>
    intro st hnd hhas
    have hn := hhas n (List.mem_cons_self n ns)
    obtain ⟨hn_nin, hns_nd⟩ := List.nodup_cons.mp hnd
    have hhas' : ∀ x ∈ ns, storeHas (storeRemove st n) x = true := by
      intro x hx
      have hxn : x ≠ n := fun he => hn_nin (he ▸ hx)
      unfold storeHas
      rw [storeGet_remove_ne st n x hxn]
      exact hhas x (List.mem_cons_of_mem n hx)
    obtain ⟨st', h1, h2, h3⟩ := ih (storeRemove st n) hns_nd hhas'
    refine ⟨st', ?_, ?_, ?_⟩
    · show (if storeHas st n = true then removeAll (storeRemove st n) ns else none) =
        some st'
      rw [if_pos hn]
      exact h1
    · intro x hx
      rcases List.mem_cons.mp hx with rfl | hx'
      · rw [h3 x hn_nin]
        exact storeGet_remove_self st x
      · exact h2 x hx'
    · intro m hm
      rw [List.mem_cons, not_or] at hm
      rw [h3 m hm.2, storeGet_remove_ne st n m hm.1]

theorem readAll_isSome : ∀ (names : List FName) (st : Store)
    (contents : List (List (ℕ × ℕ))), readAll st names = some contents →
    ∀ n ∈ names, ∃ v, storeGet st n = some v := by
  intro names
  induction names with
  | nil => intro st contents _ n hn; exact absurd hn (List.not_mem_nil n)
  | cons n ns ih =>
    intro st contents h x hx
    have hh : (match storeGet st n with
        | none => none
        | some c => (readAll st ns).map (fun rest => c :: rest)) = some contents := h
    cases hg : storeGet st n with
    | none =>
      rw [hg] at hh
      exact absurd hh (by simp)
    | some c =>
      rw [hg] at hh
      obtain ⟨rest, hrest, -⟩ := Option.map_eq_some'.mp hh
      rcases List.mem_cons.mp hx with rfl | hx'
      · exact ⟨c, hg⟩
      · exact ih st rest hrest x hx'

/-- C10: refuted as stated — on the empty input list (vacuously a list of
sorted files) `merge_sorted_bins` does not write an output and returns the
`InvalidInput` error "no input files" instead of a count. -/
theorem c10_merge_empty_counterexample :
    mergeSortedBins storeEmpty [] (FName.r 0) = .error .invalidInput := rfl

/-- C10 (amended to a nonempty collection of block files): merging the block
files `b_<numDisc>_<i>.bin`, `i < blockCount ≠ 0`, each strictly sorted,
writes to `r_<numDisc>.bin` a strictly increasing record sequence whose
records are exactly the union of the inputs (duplicates emitted once),
returns the number of records written, and deletes every block file. -/
theorem c10_merge_files_spec (st : Store) (numDisc blockCount : ℕ)
    (hbc : blockCount ≠ 0) (contents : List (List (ℕ × ℕ)))
    (hread : readAll st ((List.range blockCount).map (FName.b numDisc)) =
      some contents)
    (hsorted : ∀ c ∈ contents, c.Pairwise plt) :
    ∃ st2 : Store,
      mergeFiles st numDisc blockCount = .ok (st2, (kmerge contents).length) ∧
      storeGet st2 (FName.r numDisc) = some (kmerge contents) ∧
      (kmerge contents).Pairwise plt ∧
      (∀ x, x ∈ kmerge contents ↔ ∃ c ∈ contents, x ∈ c) ∧
      (∀ i, i < blockCount → storeGet st2 (FName.b numDisc i) = none) := by
  have hk := kmerge_spec contents hsorted
  have hne : (List.range blockCount).map (FName.b numDisc) ≠ [] := by
    cases hb : blockCount with
    | zero => exact absurd hb hbc
    | succ k => simp [List.range_succ]
  have hmsb : mergeSortedBins st ((List.range blockCount).map (FName.b numDisc))
      (FName.r numDisc) =
      .ok (storeSet st (FName.r numDisc) (kmerge contents),
        (kmerge contents).length) := by
    unfold mergeSortedBins
    rw [if_neg (by simp [List.isEmpty_iff, hne]), hread]
  have hpres := readAll_isSome _ _ _ hread
  have hnodup : ((List.range blockCount).map (FName.b numDisc)).Nodup :=
    List.Nodup.map (fun a b h => by simpa using h) (List.nodup_range blockCount)
  have hhas1 : ∀ n ∈ (List.range blockCount).map (FName.b numDisc),
      storeHas (storeSet st (FName.r numDisc) (kmerge contents)) n = true := by
    intro n hn
    obtain ⟨i, _, rfl⟩ := List.mem_map.mp hn
    unfold storeHas
    rw [storeGet_set_ne st (FName.r numDisc) (kmerge contents) _
      (fun h => FName.noConfusion h)]
    obtain ⟨v, hv⟩ := hpres _ hn
    rw [hv]
    rfl
  obtain ⟨st2, hrm, hnone, hothers⟩ := removeAll_spec _ _ hnodup hhas1
  refine ⟨st2, ?_, ?_, hk.1, hk.2, ?_⟩
  · have h1 : mergeFiles st numDisc blockCount =
        (match removeAll (storeSet st (FName.r numDisc) (kmerge contents))
            ((List.range blockCount).map (FName.b numDisc)) with
         | none => Except.error IoErr.notFound
         | some st2 => Except.ok (st2, (kmerge contents).length)) := by
      unfold mergeFiles
      rw [hmsb]
    rw [hrm] at h1
    exact h1
  · have hr_nin : FName.r numDisc ∉ (List.range blockCount).map (FName.b numDisc) := by
      intro h
      obtain ⟨i, _, he⟩ := List.mem_map.mp h
      exact FName.noConfusion he
    rw [hothers _ hr_nin, storeGet_set_eq]
  · intro i hi
    exact hnone _ (List.mem_map_of_mem _ (List.mem_range.mpr hi))

theorem c10_merge_files_spec_witness :
    (2 : ℕ) ≠ 0 ∧
    readAll (storeSet (storeSet storeEmpty (FName.b 3 0) [(1, 2), (2, 1)])
        (FName.b 3 1) [(1, 2), (5, 0)])
      ((List.range 2).map (FName.b 3)) =
        some [[(1, 2), (2, 1)], [(1, 2), (5, 0)]] ∧
    (∃ st2 : Store,
      mergeFiles (storeSet (storeSet storeEmpty (FName.b 3 0) [(1, 2), (2, 1)])
          (FName.b 3 1) [(1, 2), (5, 0)]) 3 2 =
        .ok (st2, (kmerge [[(1, 2), (2, 1)], [(1, 2), (5, 0)]]).length) ∧
      storeGet st2 (FName.r 3) = some (kmerge [[(1, 2), (2, 1)], [(1, 2), (5, 0)]]) ∧
      (kmerge [[(1, 2), (2, 1)], [(1, 2), (5, 0)]]).Pairwise plt ∧
      (∀ x, x ∈ kmerge [[(1, 2), (2, 1)], [(1, 2), (5, 0)]] ↔
        ∃ c ∈ [[(1, 2), (2, 1)], [(1, 2), (5, 0)]], x ∈ c) ∧
      (∀ i, i < 2 → storeGet st2 (FName.b 3 i) = none)) :=
  ⟨by decide, rfl,
    c10_merge_files_spec
      (storeSet (storeSet storeEmpty (FName.b 3 0) [(1, 2), (2, 1)])
        (FName.b 3 1) [(1, 2), (5, 0)]) 3 2 (by decide)
      [[(1, 2), (2, 1)], [(1, 2), (5, 0)]] rfl (by decide)⟩
